import Mathlib

/-!
Verification of the TSON parser (`src/tson.ts`) against its specification.

The development shallowly embeds the text-rewriting pipeline of `parseTSONString`
and its helper passes (`processTSONImports`, `removeImports`, `removeComments`,
`processConstDeclarations`, the key-quoting and trailing-comma regexes) together
with models of the external functions the source uses: `JSON.parse`,
`JSON.stringify`, JavaScript regular-expression replacement as used at each call
site, and the small slice of Node's `fs`/`path` modules the parser touches
(a filesystem is a finite association list from paths to file contents).

Text is modelled as `List Char`.  All definitions are structurally recursive
(fuel counters replace well-founded recursion) so that every concrete run of the
pipeline reduces by `rfl`/`decide`.
-/

namespace TSON

/-- Strings are lists of characters throughout the embedding. -/
abbrev Str := List Char

/-- Coerce a Lean string literal to the `List Char` representation. -/
def s2l (s : String) : Str := s.data

/-! ### Character classes -/

/-- JavaScript `\w` (ASCII letters, digits, underscore), as used by the
`const`/`import` regexes and by `\b` word boundaries. -/
def isWordChar (c : Char) : Bool := c.isAlphanum || c = '_'

/-- JavaScript `\s` (also the character set removed by `String.prototype.trim`
and `trimEnd`): ASCII whitespace, NBSP, and the Unicode space separators. -/
def isJsSpace (c : Char) : Bool :=
  c = ' ' || c = '\t' || c = '\n' || c = '\r' || c = '\x0b' || c = '\x0c' ||
  c = '\xa0' || c.toNat = 0x1680 || (0x2000 ≤ c.toNat && c.toNat ≤ 0x200a) ||
  c.toNat = 0x2028 || c.toNat = 0x2029 || c.toNat = 0x202f ||
  c.toNat = 0x205f || c.toNat = 0x3000 || c.toNat = 0xfeff

/-- Whitespace accepted by a strict JSON decoder (`JSON.parse`): space, tab,
line feed, carriage return only. -/
def isJsonWs (c : Char) : Bool := c = ' ' || c = '\t' || c = '\n' || c = '\r'

/-- The single-quote character, written by code point to keep source plain. -/
def sq : Char := Char.ofNat 39

/-! ### Line and trimming helpers (`split('\n')`, `join('\n')`, `trim`, `trimEnd`) -/

/-- Model of JavaScript `text.split('\n')`: always returns at least one line,
and no line contains a newline. -/
def splitLines : Str → List Str
  | [] => [[]]
  | c :: r =>
    if c = '\n' then [] :: splitLines r
    else
      match splitLines r with
      | [] => [[c]]
      | h :: t => (c :: h) :: t

/-- Model of JavaScript `lines.join('\n')`. -/
def joinLines : List Str → Str
  | [] => []
  | [l] => l
  | l :: ls => l ++ '\n' :: joinLines ls

/-- Model of JavaScript `String.prototype.trimEnd`. -/
def trimEnd (s : Str) : Str := (s.reverse.dropWhile isJsSpace).reverse

/-- Model of JavaScript `String.prototype.trim`. -/
def trim (s : Str) : Str := trimEnd (s.dropWhile isJsSpace)

/-! ### Decoded JSON values

`JSON.parse` output is modelled as a tree; object member lists are kept in
JavaScript property order (first occurrence wins the position, a duplicate key
overwrites the value in place).  Numbers are modelled exactly as rationals:
every numeric literal the repository's tests exercise is a small integer, where
the rational model and JavaScript's binary doubles agree. -/

inductive JValue where
  | null
  | bool (b : Bool)
  | num (q : Rat)
  | str (s : Str)
  | arr (elems : List JValue)
  | obj (members : List (Str × JValue))
deriving Repr

/-! ### Tokenizer for the strict JSON decoder -/

inductive Tok where
  | lb | rb | lk | rk | colon | comma
  | str (s : Str)
  | num (q : Rat)
  | tru | fls | nul
deriving Repr, DecidableEq

/-- Value of a hexadecimal digit, if the character is one. -/
def hexDigit (c : Char) : Option Nat :=
  if '0' ≤ c && c ≤ '9' then some (c.toNat - 48)
  else if 'a' ≤ c && c ≤ 'f' then some (c.toNat - 87)
  else if 'A' ≤ c && c ≤ 'F' then some (c.toNat - 55)
  else none

/-- Combine four hex digits into a code point. -/
def hexQuad (a b c d : Char) : Option Nat := do
  let x ← hexDigit a
  let y ← hexDigit b
  let z ← hexDigit c
  let w ← hexDigit d
  return ((x * 16 + y) * 16 + z) * 16 + w

/-- The single-character JSON string escapes. -/
def escMap (c : Char) : Option Char :=
  if c = '"' then some '"'
  else if c = '\\' then some '\\'
  else if c = '/' then some '/'
  else if c = 'b' then some '\x08'
  else if c = 'f' then some '\x0c'
  else if c = 'n' then some '\n'
  else if c = 'r' then some '\r'
  else if c = 't' then some '\t'
  else none

/-- Prepend a character to the content of a string-lexer result. -/
def mapCons (c : Char) : Option (Str × Str) → Option (Str × Str)
  | some (s, r) => some (c :: s, r)
  | none => none

/-- Lex the body of a JSON string (input starts after the opening quote);
returns the decoded content and the remaining input after the closing quote.
Surrogate halves from `\u` escapes that are not Unicode scalar values fall back
to `Char.ofNat`'s default; no claim exercises that corner. -/
def lexStr : Str → Option (Str × Str)
  | [] => none
  | '"' :: r => some ([], r)
  | '\\' :: 'u' :: a :: b :: c :: d :: r =>
    (match hexQuad a b c d with
     | some n => mapCons (Char.ofNat n) (lexStr r)
     | none => none)
  | '\\' :: e :: r =>
    (match escMap e with
     | some ch => mapCons ch (lexStr r)
     | none => none)
  | ['\\'] => none
  | c :: r => if c.toNat < 0x20 then none else mapCons c (lexStr r)

/-- Numeric value of a digit string. -/
def digitsToNat (ds : Str) : Nat := ds.foldl (fun a c => a * 10 + (c.toNat - 48)) 0

/-- Lex an optional JSON fraction part, returning the extended mantissa, the
number of fraction digits, and the rest. -/
def lexFrac (m : Nat) : Str → Option (Nat × Nat × Str)
  | '.' :: r =>
    (let ds := r.takeWhile Char.isDigit
     if ds = [] then none
     else some (m * 10 ^ ds.length + digitsToNat ds, ds.length, r.dropWhile Char.isDigit))
  | s => some (m, 0, s)

/-- Lex an optional JSON exponent part. -/
def lexExp : Str → Option (Int × Str)
  | c :: r =>
    if c = 'e' || c = 'E' then
      match r with
      | '+' :: r2 =>
        (let ds := r2.takeWhile Char.isDigit
         if ds = [] then none
         else some ((digitsToNat ds : Int), r2.dropWhile Char.isDigit))
      | '-' :: r2 =>
        (let ds := r2.takeWhile Char.isDigit
         if ds = [] then none
         else some (-(digitsToNat ds : Int), r2.dropWhile Char.isDigit))
      | r2 =>
        (let ds := r2.takeWhile Char.isDigit
         if ds = [] then none
         else some ((digitsToNat ds : Int), r2.dropWhile Char.isDigit))
    else some (0, c :: r)
  | [] => some (0, [])

/-- Assemble the exact rational value of a JSON numeric literal
`± m × 10^(e - fracLen)`, built with core rational operations so that concrete
runs reduce definitionally. -/
def ratOfParts (neg : Bool) (m : Nat) (fracLen : Nat) (e : Int) : Rat :=
  let ex : Int := e - fracLen
  let numAbs : Int := if 0 ≤ ex then (m : Int) * ((10 ^ ex.toNat : Nat) : Int) else (m : Int)
  let den : Nat := if 0 ≤ ex then 1 else 10 ^ (-ex).toNat
  mkRat (if neg then -numAbs else numAbs) den

/-- Lex a JSON number (integer part with no leading zeros, optional fraction,
optional exponent), returning its exact value and the rest of the input. -/
def lexNum (s : Str) : Option (Rat × Str) :=
  let (neg, s1) : Bool × Str := match s with | '-' :: r => (true, r) | _ => (false, s)
  match s1 with
  | [] => none
  | d :: r =>
    if d = '0' then
      match lexFrac 0 r with
      | some (m, f, r2) =>
        (match lexExp r2 with
         | some (e, r3) => some (ratOfParts neg m f e, r3)
         | none => none)
      | none => none
    else if d.isDigit then
      let ds := (d :: r).takeWhile Char.isDigit
      match lexFrac (digitsToNat ds) ((d :: r).dropWhile Char.isDigit) with
      | some (m, f, r2) =>
        (match lexExp r2 with
         | some (e, r3) => some (ratOfParts neg m f e, r3)
         | none => none)
      | none => none
    else none

/-- Tokenize JSON text; the fuel argument strictly exceeds the input length at
every call site, so the fuel never runs out. -/
def tokF : Nat → Str → Option (List Tok)
  | 0, _ => none
  | _ + 1, [] => some []
  | n + 1, c :: r =>
    if isJsonWs c then tokF n r
    else if c = '\x7b' then (tokF n r).map (Tok.lb :: ·)
    else if c = '\x7d' then (tokF n r).map (Tok.rb :: ·)
    else if c = '[' then (tokF n r).map (Tok.lk :: ·)
    else if c = ']' then (tokF n r).map (Tok.rk :: ·)
    else if c = ':' then (tokF n r).map (Tok.colon :: ·)
    else if c = ',' then (tokF n r).map (Tok.comma :: ·)
    else if c = '"' then
      match lexStr r with
      | some (s, r2) => (tokF n r2).map (Tok.str s :: ·)
      | none => none
    else if c = '-' || c.isDigit then
      match lexNum (c :: r) with
      | some (q, r2) => (tokF n r2).map (Tok.num q :: ·)
      | none => none
    else if c = 't' then
      match r with
      | 'r' :: 'u' :: 'e' :: r2 => (tokF n r2).map (Tok.tru :: ·)
      | _ => none
    else if c = 'f' then
      match r with
      | 'a' :: 'l' :: 's' :: 'e' :: r2 => (tokF n r2).map (Tok.fls :: ·)
      | _ => none
    else if c = 'n' then
      match r with
      | 'u' :: 'l' :: 'l' :: r2 => (tokF n r2).map (Tok.nul :: ·)
      | _ => none
    else none

/-- Tokenize with enough fuel for the whole input. -/
def tokenize (s : Str) : Option (List Tok) := tokF (s.length + 1) s

/-! ### Recursive-descent JSON parser over tokens -/

/-- Overwrite-in-place insertion, matching JavaScript object property
semantics: a duplicate key keeps its first position but takes the new value. -/
def upsert (ms : List (Str × JValue)) (k : Str) (v : JValue) : List (Str × JValue) :=
  match ms with
  | [] => [(k, v)]
  | (k2, v2) :: t => if k2 = k then (k2, v) :: t else (k2, v2) :: upsert t k v

mutual

/-- Parse one JSON value from a token stream. -/
def parseV : Nat → List Tok → Option (JValue × List Tok)
  | 0, _ => none
  | _ + 1, [] => none
  | n + 1, t :: r =>
    match t with
    | .str s => some (.str s, r)
    | .num q => some (.num q, r)
    | .tru => some (.bool true, r)
    | .fls => some (.bool false, r)
    | .nul => some (.null, r)
    | .lb =>
      (match r with
       | .rb :: r2 => some (.obj [], r2)
       | _ => parseMems n [] r)
    | .lk =>
      (match r with
       | .rk :: r2 => some (.arr [], r2)
       | _ => parseElems n [] r)
    | _ => none

/-- Parse the members of a JSON object after the opening brace. -/
def parseMems : Nat → List (Str × JValue) → List Tok → Option (JValue × List Tok)
  | 0, _, _ => none
  | n + 1, acc, .str k :: .colon :: r =>
    (match parseV n r with
     | some (v, r2) =>
       (match r2 with
        | .comma :: r3 => parseMems n (upsert acc k v) r3
        | .rb :: r3 => some (.obj (upsert acc k v), r3)
        | _ => none)
     | none => none)
  | _ + 1, _, _ => none

/-- Parse the elements of a JSON array after the opening bracket. -/
def parseElems : Nat → List JValue → List Tok → Option (JValue × List Tok)
  | 0, _, _ => none
  | n + 1, acc, r =>
    match parseV n r with
    | some (v, r2) =>
      (match r2 with
       | .comma :: r3 => parseElems n (acc ++ [v]) r3
       | .rk :: r3 => some (.arr (acc ++ [v]), r3)
       | _ => none)
    | none => none

end

/-- Model of `JSON.parse` on the reviver-free call sites used by the source:
`none` models a thrown `SyntaxError`. -/
def jsonParse (s : Str) : Option JValue :=
  match tokenize s with
  | none => none
  | some ts =>
    match parseV (2 * ts.length + 2) ts with
    | some (v, []) => some v
    | _ => none

/-! ### Model of `JSON.stringify` (no indent argument) -/

/-- Lowercase hex digit. -/
def hexCh : Nat → Char
  | 0 => '0' | 1 => '1' | 2 => '2' | 3 => '3' | 4 => '4'
  | 5 => '5' | 6 => '6' | 7 => '7' | 8 => '8' | 9 => '9'
  | 10 => 'a' | 11 => 'b' | 12 => 'c' | 13 => 'd' | 14 => 'e' | 15 => 'f'
  | _ => '*'

/-- Escape one character of a JSON string per `JSON.stringify`. -/
def escC (c : Char) : Str :=
  if c = '"' then ['\\', '"']
  else if c = '\\' then ['\\', '\\']
  else if c = '\x08' then ['\\', 'b']
  else if c = '\x0c' then ['\\', 'f']
  else if c = '\n' then ['\\', 'n']
  else if c = '\r' then ['\\', 'r']
  else if c = '\t' then ['\\', 't']
  else if c.toNat < 0x20 then
    ['\\', 'u', '0', '0', hexCh (c.toNat / 16), hexCh (c.toNat % 16)]
  else [c]

/-- Character of a decimal digit. -/
def digitCh : Nat → Char
  | 0 => '0' | 1 => '1' | 2 => '2' | 3 => '3' | 4 => '4'
  | 5 => '5' | 6 => '6' | 7 => '7' | 8 => '8' | 9 => '9'
  | _ => '*'

/-- Decimal digits of a natural number (standard division algorithm; the fuel
always suffices since `n / 10 < n` for `n ≥ 10`). -/
def natDigitsAux : Nat → Nat → Str
  | 0, _ => []
  | fuel + 1, n => if n < 10 then [digitCh n] else natDigitsAux fuel (n / 10) ++ [digitCh (n % 10)]

/-- Decimal rendering of a natural number. -/
def natRender (n : Nat) : Str := natDigitsAux (n + 1) n

/-- Decimal rendering of an integer, as JavaScript prints safe integers. -/
def intRender (i : Int) : Str :=
  if i < 0 then '-' :: natRender i.natAbs else natRender i.toNat

/-- Rendering of a number.  Integral values match JavaScript exactly; the
non-integral fallback is a placeholder never reached by any claim (JavaScript
prints the shortest double there, which has no faithful exact model). -/
def ratRender (q : Rat) : Str :=
  if q.den = 1 then intRender q.num
  else intRender q.num ++ '/' :: natRender q.den

mutual

/-- Model of `JSON.stringify(v)` with no spacing: the compact one-line form. -/
def stringify : JValue → Str
  | .null => s2l ("null")
  | .bool true => s2l ("true")
  | .bool false => s2l ("false")
  | .num q => ratRender q
  | .str s => '"' :: (s.flatMap escC) ++ ['"']
  | .arr es => '[' :: stringifyElems es ++ [']']
  | .obj ms => '\x7b' :: stringifyMems ms ++ ['\x7d']

/-- Comma-separated renderings of array elements. -/
def stringifyElems : List JValue → Str
  | [] => []
  | [e] => stringify e
  | e :: es => stringify e ++ ',' :: stringifyElems es

/-- Comma-separated renderings of object members. -/
def stringifyMems : List (Str × JValue) → Str
  | [] => []
  | [(k, v)] => '"' :: (k.flatMap escC) ++ '"' :: ':' :: stringify v
  | (k, v) :: ms => '"' :: (k.flatMap escC) ++ '"' :: ':' :: stringify v ++ ',' :: stringifyMems ms

end

end TSON

namespace TSON

/-! ### Comment stripper (`removeComments`)

A per-line scan tracking in-string state (open-quote character) and the run of
consecutive backslashes immediately before the current index (the source counts
that run by walking backwards; carrying it forwards is equivalent). -/

/-- Backslash-run update: after reading `c` the run of trailing backslashes. -/
def updBs (bs : Nat) (c : Char) : Nat := if c = '\\' then bs + 1 else 0

/-- Whether the next character is a slash (the `//` lookahead). -/
def headIsSlash : Str → Bool
  | [] => false
  | c :: _ => c = '/'

/-- Scan of one line: copies characters, tracking string state, and stops at a
`//` that occurs outside any string literal. -/
def scanLine : Bool → Char → Nat → Str → Str
  | _, _, _, [] => []
  | inS, sc, bs, c :: rest =>
    if !inS && (c = '"' || c = sq) then c :: scanLine true c (updBs bs c) rest
    else if inS && c = sc then
      c :: (if bs % 2 = 0 then scanLine false sc (updBs bs c) rest
            else scanLine true sc (updBs bs c) rest)
    else if !inS && c = '/' && headIsSlash rest then []
    else c :: scanLine inS sc (updBs bs c) rest

/-- Whether the scan of a line stops early at a comment. -/
def scanCut : Bool → Char → Nat → Str → Bool
  | _, _, _, [] => false
  | inS, sc, bs, c :: rest =>
    if !inS && (c = '"' || c = sq) then scanCut true c (updBs bs c) rest
    else if inS && c = sc then
      (if bs % 2 = 0 then scanCut false sc (updBs bs c) rest
       else scanCut true sc (updBs bs c) rest)
    else if !inS && c = '/' && headIsSlash rest then true
    else scanCut inS sc (updBs bs c) rest

/-- Scanner state after a line piece (used to compose scans of line pieces;
only consulted when no cut happens inside the piece). -/
def scanSt : Bool × Char × Nat → Str → Bool × Char × Nat
  | st, [] => st
  | (inS, sc, bs), c :: rest =>
    if !inS && (c = '"' || c = sq) then scanSt (true, c, updBs bs c) rest
    else if inS && c = sc then
      (if bs % 2 = 0 then scanSt (false, sc, updBs bs c) rest
       else scanSt (true, sc, updBs bs c) rest)
    else if !inS && c = '/' && headIsSlash rest then (inS, sc, bs)
    else scanSt (inS, sc, updBs bs c) rest

/-- One line of `removeComments`: strip an unescaped out-of-string `//` comment,
then trim trailing whitespace. -/
def removeCommentsLine (l : Str) : Str := trimEnd (scanLine false ' ' 0 l)

/-- Model of `removeComments`: per-line comment stripping, preserving the line
structure. -/
def removeComments (t : Str) : Str :=
  joinLines ((splitLines t).map removeCommentsLine)

/-! ### Syntax normalizer: bare-key quoting and trailing-comma removal

Both model global JavaScript regex replaces: `(\w+)\s*:` → `"$1":` and
`,(\s*[}\]])` → `$1`.  Each is written as the equivalent left-to-right
single-pass scanner (the regex engine scans left to right, never rescanning
replaced output, and neither pattern can overlap its own replacement). -/

/-- Key-quoting scanner.  `w` buffers a pending word, `u` the following
whitespace run; a colon closes a match `w\s*:` which is replaced by `"w":`
(dropping the whitespace, as the replacement `"$1":` does). -/
def qkAux : Str → Str → Str → Str
  | w, u, [] => w ++ u
  | w, u, c :: r =>
    if isWordChar c then
      (if u = [] then qkAux (w ++ [c]) [] r
       else w ++ u ++ qkAux [c] [] r)
    else if isJsSpace c then qkAux w (u ++ [c]) r
    else if c = ':' then
      (if w = [] then u ++ ':' :: qkAux [] [] r
       else '"' :: w ++ '"' :: ':' :: qkAux [] [] r)
    else w ++ u ++ c :: qkAux [] [] r

/-- Model of `cleaned.replace(/(\w+)\s*:/g, '"$1":')`. -/
def quoteKeys (s : Str) : Str := qkAux [] [] s

/-- Trailing-comma scanner.  `some u` records a pending comma followed by the
whitespace run `u`; a closing brace or bracket discharges the pending comma. -/
def rtAux : Option Str → Str → Str
  | none, [] => []
  | some u, [] => ',' :: u
  | none, c :: r => if c = ',' then rtAux (some []) r else c :: rtAux none r
  | some u, c :: r =>
    if isJsSpace c then rtAux (some (u ++ [c])) r
    else if c = '\x7d' || c = ']' then u ++ c :: rtAux none r
    else if c = ',' then ',' :: u ++ rtAux (some []) r
    else ',' :: u ++ c :: rtAux none r

/-- Model of `cleaned.replace(/,(\s*[}\]])/g, "$1")`. -/
def removeTrailingCommas (s : Str) : Str := rtAux none s

/-! ### Whole-word replacement (`new RegExp('\\b' + name + '\\b', 'g')`)

Used by both the constant and the import substitution loops.  The replacement
text is inserted literally (no `$` pattern ever occurs in a serialized value
here) and is not rescanned. -/

/-- A word boundary holds after a match if the next character is not a word
character (or the text ends). -/
def boundaryOk (s : Str) : Bool :=
  match s with
  | [] => true
  | c :: _ => !isWordChar c

/-- Fueled whole-word replace; `prevW` records whether the previous character
was a word character (so `\b` holds exactly when it is false). -/
def rwF (name repl : Str) : Nat → Bool → Str → Str
  | 0, _, s => s
  | _ + 1, _, [] => []
  | n + 1, prevW, c :: r =>
    if !prevW && !name.isEmpty && name.isPrefixOf (c :: r) &&
        boundaryOk ((c :: r).drop name.length) then
      repl ++ rwF name repl n true ((c :: r).drop name.length)
    else c :: rwF name repl n (isWordChar c) r

/-- Model of `line.replace(new RegExp('\\b' + name + '\\b', 'g'), repl)` for a
`\w+` name. -/
def replaceWord (name repl s : Str) : Str := rwF name repl (s.length + 1) false s

/-- Substitute every binding, in property order, into one line (the inner
`for (const [name, value] of Object.entries(...))` loops). -/
def substBindings (bnd : List (Str × JValue)) (l : Str) : Str :=
  bnd.foldl (fun ln nv => replaceWord nv.1 (stringify nv.2) ln) l

/-! ### Constant declarations (`processConstDeclarations`) -/

/-- Match a literal prefix and return the remainder. -/
def dropLit (lit : Str) (s : Str) : Option Str :=
  if lit.isPrefixOf s then some (s.drop lit.length) else none

/-- Model of `trimmed.match(/^const\s+(\w+)\s*=\s*(.+);?$/)` on an already
trimmed line: returns the name and the value capture.  The greedy `(.+)`
swallows everything to the end of the line — including a trailing semicolon,
since `;?` can match the empty string. -/
def constMatch (t : Str) : Option (Str × Str) :=
  match dropLit (s2l ("const")) t with
  | none => none
  | some r =>
    if r.takeWhile isJsSpace = ([] : Str) then none
    else
      let r1 := r.dropWhile isJsSpace
      let name := r1.takeWhile isWordChar
      let r2 := r1.dropWhile isWordChar
      if name = ([] : Str) then none
      else
        match r2.dropWhile isJsSpace with
        | '=' :: r3 =>
          (let v := r3.dropWhile isJsSpace
           if v = ([] : Str) then none else some (name, v))
        | _ => none

/-- Value bound by a declaration: quote-normalize (every single quote becomes a
double quote) and strictly decode; on failure fall back to the value text with
all quotes and semicolons deleted, as a string. -/
def parseConstValue (v : Str) : JValue :=
  match jsonParse (v.map (fun c => if c = sq then '"' else c)) with
  | some j => j
  | none => .str (v.filter (fun c => !(c = sq || c = '"' || c = ';')))

/-- Line loop of `processConstDeclarations`: declarations bind (overwriting an
existing binding in place) and blank their line; other lines get every current
binding substituted. -/
def constLinesGo : List (Str × JValue) → List Str → List Str
  | _, [] => []
  | consts, l :: ls =>
    match constMatch (trim l) with
    | some (name, v) => [] :: constLinesGo (upsert consts name (parseConstValue v)) ls
    | none => substBindings consts l :: constLinesGo consts ls

/-- Model of `processConstDeclarations`. -/
def processConstDeclarations (t : Str) : Str :=
  joinLines (constLinesGo [] (splitLines t))

/-! ### Import-line removal (`removeImports`) -/

/-- Model of `removeImports`: any line whose trimmed form starts with
`import␣` becomes a blank line. -/
def removeImports (t : Str) : Str :=
  joinLines ((splitLines t).map
    (fun l => if (s2l ("import ")).isPrefixOf (trim l) then [] else l))

/-- Model of
`trimmed.match(/^import\s+(\w+)\s+from\s+["']([^"']+\.tson)["'];?$/)` on an
already trimmed line: returns the bound name and the import path.  The path
capture is the maximal quote-free run, must end in `.tson` with at least one
character before it, and the closing quote may be either kind. -/
def tsonImportMatch (t : Str) : Option (Str × Str) :=
  match dropLit (s2l ("import")) t with
  | none => none
  | some r =>
    if r.takeWhile isJsSpace = ([] : Str) then none
    else
      let r1 := r.dropWhile isJsSpace
      let name := r1.takeWhile isWordChar
      let r2 := r1.dropWhile isWordChar
      if name = ([] : Str) then none
      else if r2.takeWhile isJsSpace = ([] : Str) then none
      else
        match dropLit (s2l ("from")) (r2.dropWhile isJsSpace) with
        | none => none
        | some r3 =>
          if r3.takeWhile isJsSpace = ([] : Str) then none
          else
            match r3.dropWhile isJsSpace with
            | [] => none
            | q :: r4 =>
              if q = '"' || q = sq then
                let p := r4.takeWhile (fun c => !(c = '"' || c = sq))
                let r5 := r4.dropWhile (fun c => !(c = '"' || c = sq))
                if p.length < 6 then none
                else if !((s2l (".tson")).isSuffixOf p) then none
                else
                  match r5 with
                  | [] => none
                  | q2 :: r6 =>
                    if q2 = '"' || q2 = sq then
                      (match r6 with
                       | [] => some (name, p)
                       | [';'] => some (name, p)
                       | _ => none)
                    else none
              else none

/-! ### Filesystem and path model

The filesystem is a finite map from paths to contents; `existsSync` is a
lookup, and `readFileSync` never fails on an existing entry, so the
`ReadFailure` branch of the source is unreachable in this model.  `resolvePath`
and `dirname` model Node's `path.resolve`/`path.dirname` for an absolute base
directory (the only way the repository calls them). -/

abbrev FS := List (Str × Str)

/-- Lookup a path. -/
def fsLookup (fs : FS) (p : Str) : Option Str :=
  match fs with
  | [] => none
  | (k, v) :: t => if k = p then some v else fsLookup t p

/-- Model of `path.isAbsolute` (POSIX). -/
def isAbsolute (p : Str) : Bool :=
  match p with
  | '/' :: _ => true
  | _ => false

/-- Split a path on `/`. -/
def splitSegs : Str → List Str
  | [] => [[]]
  | c :: r =>
    if c = '/' then [] :: splitSegs r
    else
      match splitSegs r with
      | [] => [[c]]
      | h :: t => (c :: h) :: t

/-- Normalize segments: drop empty and `.` segments, let `..` pop. -/
def normSegs (acc : List Str) : List Str → List Str
  | [] => acc.reverse
  | s :: r =>
    if s = ([] : Str) || s = ['.'] then normSegs acc r
    else if s = ['.', '.'] then normSegs (acc.drop 1) r
    else normSegs (s :: acc) r

/-- Model of `path.resolve(base, p)` for an absolute `base`. -/
def resolvePath (base p : Str) : Str :=
  '/' :: List.intercalate ['/'] (normSegs [] (splitSegs base ++ splitSegs p))

/-- Model of `path.dirname` (POSIX). -/
def dirname (p : Str) : Str :=
  let rev := p.reverse.dropWhile (fun c => c = '/')
  let rev2 := (rev.dropWhile (fun c => !(c = '/'))).dropWhile (fun c => c = '/')
  if rev2 = ([] : Str) then (if isAbsolute p then ['/'] else ['.'])
  else rev2.reverse

/-! ### Options, errors and the parse pipeline -/

/-- The `TSONParseOptions` record with its documented defaults. -/
structure Opts where
  allowTrailingCommas : Bool := true
  allowComments : Bool := true
  allowConst : Bool := true
  allowImports : Bool := true
  allowTSONImports : Bool := true
  strict : Bool := false
  baseDir : Str := ['/']
deriving Repr, DecidableEq

/-- Error kinds, one per construction site of `TSONParseError`, named after the
specification's error taxonomy (the source has a single error class; the kind
tag records which site built the error). -/
inductive ErrKind where
  | fileNotFound | readFailure | importNotFound | importParseFailure | syntaxError | fuelOut
deriving Repr, DecidableEq

/-- A `TSONParseError` (line/column are never set by the source). -/
structure TSONErr where
  kind : ErrKind
  message : Str
  filePath : Option Str
deriving Repr, DecidableEq

/-- Result of a parse: a thrown error (strict mode only, plus fuel exhaustion),
or a decoded value (`none` models the lenient `null`) together with the
`console.error` diagnostics emitted, in order. -/
abbrev PRes := Except TSONErr (Option JValue × List Str)

/-- Message of the missing-import error. -/
def importNotFoundMsg (ip rp : Str) : Str :=
  s2l ("TSON import file not found: \"") ++ ip ++ s2l ("\" (resolved to: ") ++ rp ++ s2l (")")

/-- Message of the catch-all wrapper around a failed import. -/
def wrapImportMsg (ip inner : Str) : Str :=
  s2l ("Failed to import TSON file \"") ++ ip ++ s2l ("\": ") ++ inner

/-- Message of the final strict-decode failure.  The tail of the real message
interpolates the JavaScript engine's `SyntaxError` text, which has no stable
content; it is modelled by the fixed tag `SyntaxError`. -/
def parseErrMsg (fp : Option Str) : Str :=
  s2l ("TSON parse error") ++
    (match fp with
     | some p => s2l (" in ") ++ p
     | none => []) ++ s2l (": SyntaxError")

/-- Options of the recursive import parse: the source hardcodes every feature
flag to `true` and inherits only strictness, with the imported file's directory
as base. -/
def importCallOpts (strict : Bool) (baseDir : Str) : Opts :=
  { strict := strict, baseDir := baseDir }

/-- Action of one TSON import statement, parameterized by the recursive
file-parse function: resolve the path, check existence, recursively parse, and
either bind the decoded value or fail.  A missing file or a failed recursive
parse throws in strict mode — wrapped by the surrounding `catch` into the
`Failed to import` error — and in lenient mode logs a diagnostic and leaves the
bindings unchanged. -/
def importLineAct (parseFile : Str → Opts → PRes) (fs : FS) (bd : Str)
    (fp : Option Str) (strict : Bool) (bnd : List (Str × JValue)) (name ip : Str) :
    Except TSONErr (List (Str × JValue) × List Str) :=
  let resolved := if isAbsolute ip then ip else resolvePath bd ip
  match fsLookup fs resolved with
  | none =>
    if strict then
      .error ⟨.importParseFailure, wrapImportMsg ip (importNotFoundMsg ip resolved), fp⟩
    else .ok (bnd, [importNotFoundMsg ip resolved])
  | some _ =>
    match parseFile resolved (importCallOpts strict (dirname resolved)) with
    | .ok (some v, ds1) => .ok (upsert bnd name v, ds1)
    | .ok (none, ds1) => .ok (bnd, ds1)
    | .error e =>
      if strict then .error ⟨.importParseFailure, wrapImportMsg ip e.message, fp⟩
      else .ok (bnd, [wrapImportMsg ip e.message])

/-- Line loop of `processTSONImports`: import lines perform their action and
blank their line; other lines get every import binding substituted. -/
def importLinesGo (parseFile : Str → Opts → PRes) (fs : FS) (bd : Str)
    (fp : Option Str) (strict : Bool) :
    List (Str × JValue) → List Str → Except TSONErr (List Str × List Str)
  | _, [] => .ok ([], [])
  | bnd, l :: ls =>
    match tsonImportMatch (trim l) with
    | some (name, ip) =>
      (match importLineAct parseFile fs bd fp strict bnd name ip with
       | .error e => .error e
       | .ok (bnd2, ds1) =>
         match importLinesGo parseFile fs bd fp strict bnd2 ls with
         | .ok (os, ds) => .ok ([] :: os, ds1 ++ ds)
         | .error e => .error e)
    | none =>
      match importLinesGo parseFile fs bd fp strict bnd ls with
      | .ok (os, ds) => .ok (substBindings bnd l :: os, ds)
      | .error e => .error e

/-- Model of `processTSONImports`, given the recursive file parser. -/
def processTSONImportsF (parseFile : Str → Opts → PRes) (fs : FS) (baseDir : Str)
    (filePath : Option Str) (strict : Bool) (t : Str) : Except TSONErr (Str × List Str) :=
  match importLinesGo parseFile fs baseDir filePath strict [] (splitLines t) with
  | .ok (os, ds) => .ok (joinLines os, ds)
  | .error e => .error e

/-- Model of `parseTSONString`, given the recursive file parser: the pipeline
of import resolution, import-line removal, comment stripping, constant
resolution, key quoting, trailing-comma removal, and the final strict decode. -/
def parseTSONStringF (parseFile : Str → Opts → PRes) (fs : FS)
    (filePath : Option Str) (o : Opts) (content : Str) : PRes :=
  match (if o.allowTSONImports then
           processTSONImportsF parseFile fs o.baseDir filePath o.strict content
         else .ok (content, [])) with
  | .error e => .error e
  | .ok (c1, ds) =>
    let c2 := if o.allowImports then removeImports c1 else c1
    let c3 := if o.allowComments then removeComments c2 else c2
    let c4 := if o.allowConst then processConstDeclarations c3 else c3
    let c5 := quoteKeys c4
    let c6 := if o.allowTrailingCommas then removeTrailingCommas c5 else c5
    match jsonParse c6 with
    | some v => .ok (some v, ds)
    | none =>
      if o.strict then .error ⟨.syntaxError, parseErrMsg filePath, filePath⟩
      else .ok (none, ds ++ [parseErrMsg filePath])

/-- Model of `parseTSON`: check existence, read, and parse the content with the
file's directory as base.  The fuel bounds the depth of the import recursion,
which the source leaves unbounded (a cyclic import overflows its stack); fuel
exhaustion is modelled as a thrown error. -/
def parseTSONFuel : Nat → FS → Str → Opts → PRes
  | 0, _, _, _ => .error ⟨.fuelOut, s2l ("import recursion exceeded the modelling fuel"), none⟩
  | n + 1, fs, p, o =>
    match fsLookup fs p with
    | none =>
      let m := s2l ("File not found: ") ++ p
      if o.strict then .error ⟨.fileNotFound, m, some p⟩ else .ok (none, [m])
    | some raw =>
      parseTSONStringF (fun p2 o2 => parseTSONFuel n fs p2 o2) fs (some p)
        { o with baseDir := dirname p } raw

/-- Model of the exported `parseTSONString` entry point. -/
def parseTSONString (fuel : Nat) (fs : FS) (filePath : Option Str) (o : Opts)
    (content : Str) : PRes :=
  parseTSONStringF (fun p2 o2 => parseTSONFuel fuel fs p2 o2) fs filePath o content

/-- Model of the exported `parseTSON` entry point. -/
def parseTSON (fuel : Nat) (fs : FS) (p : Str) (o : Opts) : PRes :=
  parseTSONFuel fuel fs p o

/-- Model of `validateTSON`: strict parse inside a `try`, every thrown error
converted to `false`. -/
def validateTSON (fuel : Nat) (fs : FS) (p : Str) : Bool :=
  match parseTSONFuel fuel fs p { strict := true } with
  | .ok _ => true
  | .error _ => false

/-- Decoded value of a parse outcome (`none` for lenient `null` and for a
thrown error). -/
def rValue : PRes → Option JValue
  | .ok (vOpt, _) => vOpt
  | .error _ => none

end TSON

namespace TSON

/-! ### Derived notions used by the theorem statements -/

/-- Whether the comment scan of a single line stops at a comment. -/
def lineHasComment (l : Str) : Bool := scanCut false ' ' 0 l

/-- A line is inert for the import passes: it is not a TSON import statement
and its trimmed form does not start with `import␣`. -/
def lineNoImport (l : Str) : Bool :=
  !((s2l ("import ")).isPrefixOf (trim l)) && (tsonImportMatch (trim l)).isNone

/-- A line is not a constant declaration. -/
def lineNoConst (l : Str) : Bool := (constMatch (trim l)).isNone

/-- Trim every line except the last one (the shape `removeComments` leaves on
the text before an appended closer, whose own line is ended by the closer). -/
def trimInnerLines : List Str → List Str
  | [] => []
  | [l] => [l]
  | l :: ls => trimEnd l :: trimInnerLines ls

/-- The text with every non-final line right-trimmed. -/
def trimInner (s : Str) : Str := joinLines (trimInnerLines (splitLines s))

/-- Pending state of the trailing-comma scanner after a piece of text:
`some u` means the text ends with a comma followed by the whitespace run `u`. -/
def rtSt : Option Str → Str → Option Str
  | st, [] => st
  | none, c :: r => if c = ',' then rtSt (some []) r else rtSt none r
  | some u, c :: r =>
    if isJsSpace c then rtSt (some (u ++ [c])) r
    else if c = '\x7d' || c = ']' then rtSt none r
    else if c = ',' then rtSt (some []) r
    else rtSt none r

/-- Output of the trailing-comma scanner on a piece of text, without the
end-of-text flush of a pending comma (used to compose scans of pieces). -/
def rtRun : Option Str → Str → Str
  | _, [] => []
  | none, c :: r => if c = ',' then rtRun (some []) r else c :: rtRun none r
  | some u, c :: r =>
    if isJsSpace c then rtRun (some (u ++ [c])) r
    else if c = '\x7d' || c = ']' then u ++ c :: rtRun none r
    else if c = ',' then ',' :: u ++ rtRun (some []) r
    else ',' :: u ++ c :: rtRun none r

end TSON

namespace TSON

/-! ## Line and trimming lemmas -/

theorem splitLines_ne_nil (t : Str) : splitLines t ≠ [] := by
  cases t with
  | nil => simp [splitLines]
  | cons c r =>
    simp only [splitLines]
    split
    · simp
    · cases h : splitLines r <;> simp

theorem noNl_of_mem_splitLines {t l : Str} (h : l ∈ splitLines t) : '\n' ∉ l := by
  induction t generalizing l with
  | nil =>
    have he : l = [] := by simpa [splitLines] using h
    subst he; simp
  | cons c r ih =>
    by_cases hc : c = '\n'
    · subst hc
      have h2 : l = [] ∨ l ∈ splitLines r := by
        simpa [splitLines] using h
      rcases h2 with h2 | h2
      · subst h2; simp
      · exact ih h2
    · cases hr : splitLines r with
      | nil => exact absurd hr (splitLines_ne_nil r)
      | cons h0 t0 =>
        have h2 : l = c :: h0 ∨ l ∈ t0 := by
          simpa [splitLines, hc, hr] using h
        rcases h2 with h2 | h2
        · subst h2
          have h0mem : h0 ∈ splitLines r := by rw [hr]; exact List.mem_cons_self _ _
          have hn := ih h0mem
          intro hmem
          rcases List.mem_cons.mp hmem with he | he
          · exact hc he.symm
          · exact hn he
        · exact ih (by rw [hr]; exact List.mem_cons_of_mem _ h2)

theorem joinLines_cons_cons (a b : Str) (t : List Str) :
    joinLines (a :: b :: t) = a ++ '\n' :: joinLines (b :: t) := rfl

theorem joinLines_splitLines (t : Str) : joinLines (splitLines t) = t := by
  induction t with
  | nil => rfl
  | cons c r ih =>
    by_cases hc : c = '\n'
    · subst hc
      rw [show splitLines ('\n' :: r) = [] :: splitLines r from by simp [splitLines]]
      cases hr : splitLines r with
      | nil => exact absurd hr (splitLines_ne_nil r)
      | cons h0 t0 =>
        rw [joinLines_cons_cons, ← hr, ih]
        rfl
    · cases hr : splitLines r with
      | nil => exact absurd hr (splitLines_ne_nil r)
      | cons h0 t0 =>
        rw [show splitLines (c :: r) = (c :: h0) :: t0 from by simp [splitLines, hc, hr]]
        cases t0 with
        | nil =>
          have : joinLines [c :: h0] = c :: h0 := rfl
          rw [this]
          have : joinLines [h0] = h0 := rfl
          rw [hr] at ih
          rw [this] at ih
          rw [ih]
        | cons b t1 =>
          rw [joinLines_cons_cons]
          rw [hr, joinLines_cons_cons] at ih
          simp only [List.cons_append]
          exact congrArg (c :: ·) ih

theorem splitLines_of_noNl {a : Str} (h : '\n' ∉ a) : splitLines a = [a] := by
  induction a with
  | nil => rfl
  | cons c r ih =>
    have hc : ¬ c = '\n' := fun he => h (by simp [he])
    have hr : '\n' ∉ r := fun hm => h (List.mem_cons_of_mem _ hm)
    simp [splitLines, hc, ih hr]

theorem splitLines_append_nl {a b : Str} (h : '\n' ∉ a) :
    splitLines (a ++ '\n' :: b) = a :: splitLines b := by
  induction a with
  | nil => simp [splitLines]
  | cons c r ih =>
    have hc : ¬ c = '\n' := fun he => h (by simp [he])
    have hr : '\n' ∉ r := fun hm => h (List.mem_cons_of_mem _ hm)
    cases hsp : splitLines (r ++ '\n' :: b) with
    | nil => exact absurd hsp (splitLines_ne_nil _)
    | cons h0 t0 =>
      have := ih hr
      rw [hsp] at this
      cases this
      simp [splitLines, hc, hsp]

theorem splitLines_joinLines {ls : List Str} (hne : ls ≠ [])
    (h : ∀ l ∈ ls, '\n' ∉ l) : splitLines (joinLines ls) = ls := by
  induction ls with
  | nil => exact absurd rfl hne
  | cons a t ih =>
    cases t with
    | nil =>
      have : joinLines [a] = a := rfl
      rw [this, splitLines_of_noNl (h a (List.mem_cons_self _ _))]
    | cons b t1 =>
      rw [joinLines_cons_cons,
        splitLines_append_nl (h a (List.mem_cons_self _ _)),
        ih (by simp) (fun l hl => h l (List.mem_cons_of_mem _ hl))]

theorem dropWhile_idem (p : Char → Bool) (l : Str) :
    List.dropWhile p (List.dropWhile p l) = List.dropWhile p l := by
  induction l with
  | nil => rfl
  | cons c r ih =>
    by_cases h : p c
    · simp [List.dropWhile, h, ih]
    · simp [List.dropWhile, h]

theorem trimEnd_idem (s : Str) : trimEnd (trimEnd s) = trimEnd s := by
  unfold trimEnd
  rw [List.reverse_reverse, dropWhile_idem]

theorem trimEnd_snoc_nonws {c : Char} (s : Str) (h : isJsSpace c = false) :
    trimEnd (s ++ [c]) = s ++ [c] := by
  unfold trimEnd
  rw [List.reverse_append]
  simp [List.dropWhile, h]


end TSON

namespace TSON

/-! ## Comment-scanner lemmas -/

theorem scanLine_cases (inS : Bool) (sc : Char) (bs : Nat) (c : Char) (r : Str) :
    scanLine inS sc bs (c :: r) = [] ∨ ∃ t, scanLine inS sc bs (c :: r) = c :: t := by
  simp only [scanLine]
  split_ifs <;> first
    | exact Or.inl rfl
    | exact Or.inr ⟨_, rfl⟩

theorem headIsSlash_of_scan (inS : Bool) (sc : Char) (bs : Nat) (r : Str)
    (h : headIsSlash r = false) : headIsSlash (scanLine inS sc bs r) = false := by
  cases r with
  | nil => rfl
  | cons c2 r2 =>
    rcases scanLine_cases inS sc bs c2 r2 with hc | ⟨t, ht⟩
    · rw [hc]; rfl
    · rw [ht]
      simpa [headIsSlash] using h

theorem scanLine_self : ∀ (l : Str) (inS : Bool) (sc : Char) (bs : Nat),
    scanLine inS sc bs (scanLine inS sc bs l) = scanLine inS sc bs l := by
  intro l
  induction l with
  | nil => intro inS sc bs; rfl
  | cons c r ih =>
    intro inS sc bs
    by_cases h1 : (!inS && (c = '"' || c = sq)) = true
    · have e1 : ∀ X, scanLine inS sc bs (c :: X) = c :: scanLine true c (updBs bs c) X := by
        intro X
        simp only [scanLine]
        rw [if_pos h1]
      rw [e1, e1, ih]
    · by_cases h2 : (inS && c = sc) = true
      · by_cases hb : bs % 2 = 0
        · have e1 : ∀ X, scanLine inS sc bs (c :: X) = c :: scanLine false sc (updBs bs c) X := by
            intro X
            simp only [scanLine]
            rw [if_neg h1, if_pos h2, if_pos hb]
          rw [e1, e1, ih]
        · have e1 : ∀ X, scanLine inS sc bs (c :: X) = c :: scanLine true sc (updBs bs c) X := by
            intro X
            simp only [scanLine]
            rw [if_neg h1, if_pos h2, if_neg hb]
          rw [e1, e1, ih]
      · by_cases h3 : (!inS && c = '/' && headIsSlash r) = true
        · have e1 : scanLine inS sc bs (c :: r) = [] := by
            simp only [scanLine]
            rw [if_neg h1, if_neg h2, if_pos h3]
          rw [e1]
          rfl
        · have e1 : scanLine inS sc bs (c :: r) = c :: scanLine inS sc (updBs bs c) r := by
            simp only [scanLine]
            rw [if_neg h1, if_neg h2, if_neg h3]
          have hX : ¬ ((!inS && c = '/' && headIsSlash (scanLine inS sc (updBs bs c) r)) = true) := by
            intro hcon
            simp only [Bool.and_eq_true, decide_eq_true_eq] at hcon
            have hr : headIsSlash r = false := by
              cases hh : headIsSlash r with
              | false => rfl
              | true =>
                exact absurd (by
                  simp only [Bool.and_eq_true, decide_eq_true_eq]
                  exact ⟨hcon.1, hh⟩) h3
            rw [headIsSlash_of_scan _ _ _ _ hr] at hcon
            exact absurd hcon.2 (by simp)
          have e2 : scanLine inS sc bs (c :: scanLine inS sc (updBs bs c) r)
              = c :: scanLine inS sc (updBs bs c) (scanLine inS sc (updBs bs c) r) := by
            simp only [scanLine]
            rw [if_neg h1, if_neg h2, if_neg hX]
          rw [e1, e2, ih]

theorem scanLine_of_append_self : ∀ (u v : Str) (inS : Bool) (sc : Char) (bs : Nat),
    scanLine inS sc bs (u ++ v) = u ++ v → scanLine inS sc bs u = u := by
  intro u
  induction u with
  | nil => intro v inS sc bs _; rfl
  | cons c u2 ih =>
    intro v inS sc bs H
    by_cases h1 : (!inS && (c = '"' || c = sq)) = true
    · have e1 : ∀ X, scanLine inS sc bs (c :: X) = c :: scanLine true c (updBs bs c) X := by
        intro X
        simp only [scanLine]
        rw [if_pos h1]
      rw [e1]
      rw [List.cons_append, e1] at H
      rw [ih v _ _ _ (List.cons.inj H).2]
    · by_cases h2 : (inS && c = sc) = true
      · by_cases hb : bs % 2 = 0
        · have e1 : ∀ X, scanLine inS sc bs (c :: X) = c :: scanLine false sc (updBs bs c) X := by
            intro X
            simp only [scanLine]
            rw [if_neg h1, if_pos h2, if_pos hb]
          rw [e1]
          rw [List.cons_append, e1] at H
          rw [ih v _ _ _ (List.cons.inj H).2]
        · have e1 : ∀ X, scanLine inS sc bs (c :: X) = c :: scanLine true sc (updBs bs c) X := by
            intro X
            simp only [scanLine]
            rw [if_neg h1, if_pos h2, if_neg hb]
          rw [e1]
          rw [List.cons_append, e1] at H
          rw [ih v _ _ _ (List.cons.inj H).2]
      · by_cases h3 : (!inS && c = '/' && headIsSlash (u2 ++ v)) = true
        · exfalso
          have e1 : scanLine inS sc bs (c :: (u2 ++ v)) = [] := by
            simp only [scanLine]
            rw [if_neg h1, if_neg h2, if_pos h3]
          rw [List.cons_append, e1] at H
          exact List.cons_ne_nil _ _ H.symm
        · have h3u : ¬ ((!inS && c = '/' && headIsSlash u2) = true) := by
            intro hcon
            apply h3
            simp only [Bool.and_eq_true, decide_eq_true_eq] at hcon ⊢
            refine ⟨hcon.1, ?_⟩
            cases u2 with
            | nil => simp [headIsSlash] at hcon
            | cons d t => simpa [headIsSlash] using hcon.2
          have e1 : scanLine inS sc bs (c :: (u2 ++ v)) = c :: scanLine inS sc (updBs bs c) (u2 ++ v) := by
            simp only [scanLine]
            rw [if_neg h1, if_neg h2, if_neg h3]
          have e2 : scanLine inS sc bs (c :: u2) = c :: scanLine inS sc (updBs bs c) u2 := by
            simp only [scanLine]
            rw [if_neg h1, if_neg h2, if_neg h3u]
          rw [e2]
          rw [List.cons_append, e1] at H
          rw [ih v _ _ _ (List.cons.inj H).2]

theorem trimEnd_decomp (s : Str) : ∃ w, s = trimEnd s ++ w ∧ ∀ c ∈ w, isJsSpace c = true := by
  refine ⟨(s.reverse.takeWhile isJsSpace).reverse, ?_, ?_⟩
  · unfold trimEnd
    rw [← List.reverse_append, List.takeWhile_append_dropWhile, List.reverse_reverse]
  · intro c hc
    rw [List.mem_reverse] at hc
    exact List.mem_takeWhile_imp hc

end TSON

namespace TSON

theorem scanLine_shape (inS : Bool) (sc : Char) (bs : Nat) (c : Char) (r : Str) :
    scanLine inS sc bs (c :: r) = [] ∨
    ∃ i2 s2 b2, scanLine inS sc bs (c :: r) = c :: scanLine i2 s2 b2 r := by
  simp only [scanLine]
  split_ifs <;> first
    | exact Or.inl rfl
    | exact Or.inr ⟨_, _, _, rfl⟩

theorem scanLine_mem : ∀ (l : Str) (inS : Bool) (sc : Char) (bs : Nat) (x : Char),
    x ∈ scanLine inS sc bs l → x ∈ l := by
  intro l
  induction l with
  | nil =>
    intro _ _ _ x h
    simp [scanLine] at h
  | cons c r ih =>
    intro inS sc bs x h
    rcases scanLine_shape inS sc bs c r with hs | ⟨i2, s2, b2, hs⟩
    · rw [hs] at h
      simp at h
    · rw [hs] at h
      rcases List.mem_cons.mp h with he | he
      · exact he ▸ List.mem_cons_self _ _
      · exact List.mem_cons_of_mem _ (ih _ _ _ _ he)

theorem trimEnd_mem {s : Str} {x : Char} (h : x ∈ trimEnd s) : x ∈ s := by
  unfold trimEnd at h
  rw [List.mem_reverse] at h
  exact List.mem_reverse.mp ((List.dropWhile_suffix isJsSpace).sublist.subset h)

theorem removeCommentsLine_noNl {l : Str} (h : '\n' ∉ l) : '\n' ∉ removeCommentsLine l :=
  fun hm => h (scanLine_mem _ _ _ _ _ (trimEnd_mem hm))

theorem removeCommentsLine_idem (l : Str) :
    removeCommentsLine (removeCommentsLine l) = removeCommentsLine l := by
  unfold removeCommentsLine
  obtain ⟨w, hw, _⟩ := trimEnd_decomp (scanLine false ' ' 0 l)
  have hself := scanLine_self l false ' ' 0
  rw [hw] at hself
  rw [scanLine_of_append_self _ _ _ _ _ hself, trimEnd_idem]

theorem removeComments_idem (t : Str) :
    removeComments (removeComments t) = removeComments t := by
  unfold removeComments
  have hnn : ∀ l ∈ (splitLines t).map removeCommentsLine, '\n' ∉ l := by
    intro l hl
    obtain ⟨l0, hl0, rfl⟩ := List.mem_map.mp hl
    exact removeCommentsLine_noNl (noNl_of_mem_splitLines hl0)
  have hne : (splitLines t).map removeCommentsLine ≠ [] := by
    intro he
    exact splitLines_ne_nil t (List.map_eq_nil_iff.mp he)
  rw [splitLines_joinLines hne hnn, List.map_map]
  exact congrArg joinLines (List.map_congr_left (fun a _ => removeCommentsLine_idem a))

end TSON

namespace TSON

/-! ## Scanner composition lemmas (string safety of the comment stripper) -/

theorem scanLine_append_of_no_cut :
    ∀ (u v : Str) (inS : Bool) (sc : Char) (bs : Nat),
      scanCut inS sc bs u = false → headIsSlash v = false →
      scanLine inS sc bs (u ++ v) =
        u ++ scanLine (scanSt (inS, sc, bs) u).1 (scanSt (inS, sc, bs) u).2.1
          (scanSt (inS, sc, bs) u).2.2 v := by
  intro u
  induction u with
  | nil =>
    intro v inS sc bs _ _
    rfl
  | cons c u2 ih =>
    intro v inS sc bs hcut hv
    by_cases h1 : (!inS && (c = '"' || c = sq)) = true
    · have ec : scanCut true c (updBs bs c) u2 = false := by
        have : scanCut inS sc bs (c :: u2) = scanCut true c (updBs bs c) u2 := by
          simp only [scanCut]
          rw [if_pos h1]
        rw [← this]; exact hcut
      have es : scanSt (inS, sc, bs) (c :: u2) = scanSt (true, c, updBs bs c) u2 := by
        simp only [scanSt]
        rw [if_pos h1]
      have el : scanLine inS sc bs (c :: (u2 ++ v)) = c :: scanLine true c (updBs bs c) (u2 ++ v) := by
        simp only [scanLine]
        rw [if_pos h1]
      rw [List.cons_append, el, ih v _ _ _ ec hv, es]
      rfl
    · by_cases h2 : (inS && c = sc) = true
      · by_cases hb : bs % 2 = 0
        · have ec : scanCut false sc (updBs bs c) u2 = false := by
            have : scanCut inS sc bs (c :: u2) = scanCut false sc (updBs bs c) u2 := by
              simp only [scanCut]
              rw [if_neg h1, if_pos h2, if_pos hb]
            rw [← this]; exact hcut
          have es : scanSt (inS, sc, bs) (c :: u2) = scanSt (false, sc, updBs bs c) u2 := by
            simp only [scanSt]
            rw [if_neg h1, if_pos h2, if_pos hb]
          have el : scanLine inS sc bs (c :: (u2 ++ v)) =
              c :: scanLine false sc (updBs bs c) (u2 ++ v) := by
            simp only [scanLine]
            rw [if_neg h1, if_pos h2, if_pos hb]
          rw [List.cons_append, el, ih v _ _ _ ec hv, es]
          rfl
        · have ec : scanCut true sc (updBs bs c) u2 = false := by
            have : scanCut inS sc bs (c :: u2) = scanCut true sc (updBs bs c) u2 := by
              simp only [scanCut]
              rw [if_neg h1, if_pos h2, if_neg hb]
            rw [← this]; exact hcut
          have es : scanSt (inS, sc, bs) (c :: u2) = scanSt (true, sc, updBs bs c) u2 := by
            simp only [scanSt]
            rw [if_neg h1, if_pos h2, if_neg hb]
          have el : scanLine inS sc bs (c :: (u2 ++ v)) =
              c :: scanLine true sc (updBs bs c) (u2 ++ v) := by
            simp only [scanLine]
            rw [if_neg h1, if_pos h2, if_neg hb]
          rw [List.cons_append, el, ih v _ _ _ ec hv, es]
          rfl
      · have h3 : ¬ ((!inS && c = '/' && headIsSlash u2) = true) := by
          intro hcon
          have : scanCut inS sc bs (c :: u2) = true := by
            simp only [scanCut]
            rw [if_neg h1, if_neg h2, if_pos hcon]
          rw [this] at hcut
          exact absurd hcut (by simp)
        have h3v : ¬ ((!inS && c = '/' && headIsSlash (u2 ++ v)) = true) := by
          intro hcon
          apply h3
          simp only [Bool.and_eq_true, decide_eq_true_eq] at hcon ⊢
          refine ⟨hcon.1, ?_⟩
          cases u2 with
          | nil =>
            rw [List.nil_append] at hcon
            rw [hv] at hcon
            exact absurd hcon.2 (by simp)
          | cons d t =>
            simpa [headIsSlash] using hcon.2
        have ec : scanCut inS sc (updBs bs c) u2 = false := by
          have : scanCut inS sc bs (c :: u2) = scanCut inS sc (updBs bs c) u2 := by
            simp only [scanCut]
            rw [if_neg h1, if_neg h2, if_neg h3]
          rw [← this]; exact hcut
        have es : scanSt (inS, sc, bs) (c :: u2) = scanSt (inS, sc, updBs bs c) u2 := by
          simp only [scanSt]
          rw [if_neg h1, if_neg h2, if_neg h3]
        have el : scanLine inS sc bs (c :: (u2 ++ v)) =
            c :: scanLine inS sc (updBs bs c) (u2 ++ v) := by
          simp only [scanLine]
          rw [if_neg h1, if_neg h2, if_neg h3v]
        rw [List.cons_append, el, ih v _ _ _ ec hv, es]
        rfl

theorem scanLine_instring : ∀ (content post : Str),
    (∀ c ∈ content, ¬c = '"' ∧ ¬c = '\\') →
    scanLine true '"' 0 (content ++ '"' :: post) =
      content ++ '"' :: scanLine false '"' 0 post := by
  intro content
  induction content with
  | nil =>
    intro post _
    simp only [List.nil_append, scanLine]
    rw [if_neg (by simp), if_pos (by simp)]
    simp [updBs]
  | cons c cs ih =>
    intro post hc
    obtain ⟨hq, hb⟩ := hc c (List.mem_cons_self _ _)
    simp only [List.cons_append, scanLine]
    rw [if_neg (by simp), if_neg (by simp [hq]), if_neg (by simp)]
    rw [show updBs 0 c = 0 from by simp [updBs, hb]]
    simp only [List.append_eq]
    rw [ih post (fun x hx => hc x (List.mem_cons_of_mem _ hx))]

theorem scanLine_open_quote (sc : Char) (bs : Nat) (rest : Str) :
    scanLine false sc bs ('"' :: rest) = '"' :: scanLine true '"' 0 rest := by
  simp only [scanLine]
  rw [if_pos (by simp)]
  simp [updBs]

theorem dropWhile_append_stop {p : Char → Bool} (c : Char) (hc : p c = false) :
    ∀ (u w : Str), List.dropWhile p (u ++ c :: w) = List.dropWhile p u ++ c :: w := by
  intro u w
  induction u with
  | nil => simp [List.dropWhile, hc]
  | cons d t ih =>
    by_cases hd : p d
    · simp [List.dropWhile, hd, ih]
    · simp [List.dropWhile, hd]

theorem trimEnd_append_anchor (X Y : Str) (c : Char) (hc : isJsSpace c = false) :
    trimEnd (X ++ c :: Y) = X ++ c :: trimEnd Y := by
  unfold trimEnd
  rw [List.reverse_append, List.reverse_cons, List.append_assoc, List.singleton_append,
    dropWhile_append_stop c hc, List.reverse_append, List.reverse_cons, List.reverse_reverse]
  simp

end TSON

namespace TSON

/-! ## No-newline lemmas for serialized values -/

theorem digitCh_ne_nl (d : Nat) : digitCh d ≠ '\n' := by
  unfold digitCh
  split <;> decide

theorem hexCh_ne_nl (d : Nat) : hexCh d ≠ '\n' := by
  unfold hexCh
  split <;> decide

theorem natDigitsAux_noNl : ∀ (fuel n : Nat), '\n' ∉ natDigitsAux fuel n := by
  intro fuel
  induction fuel with
  | zero => intro n; simp [natDigitsAux]
  | succ f ih =>
    intro n
    unfold natDigitsAux
    split
    · intro h
      exact digitCh_ne_nl n (List.mem_singleton.mp h).symm
    · intro h
      rcases List.mem_append.mp h with h | h
      · exact ih _ h
      · exact digitCh_ne_nl _ (List.mem_singleton.mp h).symm

theorem natRender_noNl (n : Nat) : '\n' ∉ natRender n := natDigitsAux_noNl _ _

theorem intRender_noNl (i : Int) : '\n' ∉ intRender i := by
  unfold intRender
  split
  · intro h
    rcases List.mem_cons.mp h with he | hm
    · exact absurd he (by decide)
    · exact natRender_noNl _ hm
  · exact natRender_noNl _

theorem ratRender_noNl (q : Rat) : '\n' ∉ ratRender q := by
  unfold ratRender
  split
  · exact intRender_noNl _
  · intro h
    rcases List.mem_append.mp h with h | h
    · exact intRender_noNl _ h
    · rcases List.mem_cons.mp h with he | hm
      · exact absurd he (by decide)
      · exact natRender_noNl _ hm

theorem escC_noNl (c : Char) : '\n' ∉ escC c := by
  unfold escC
  split_ifs with h1 h2 h3 h4 h5 h6 h7 h8 <;>
    first
      | decide
      | (intro hm
         exact h5 (List.mem_singleton.mp hm).symm)
      | (intro hm
         rcases List.mem_cons.mp hm with he | hm2
         · exact absurd he (by decide)
         · rcases List.mem_cons.mp hm2 with he | hm3
           · exact absurd he (by decide)
           · rcases List.mem_cons.mp hm3 with he | hm4
             · exact absurd he (by decide)
             · rcases List.mem_cons.mp hm4 with he | hm5
               · exact absurd he (by decide)
               · rcases List.mem_cons.mp hm5 with he | hm6
                 · exact absurd (he ▸ hexCh_ne_nl (c.toNat / 16)) (by simp)
                 · rcases List.mem_cons.mp hm6 with he | hm7
                   · exact absurd (he ▸ hexCh_ne_nl (c.toNat % 16)) (by simp)
                   · simp at hm7)

mutual

theorem stringify_noNl : ∀ (v : JValue), '\n' ∉ stringify v
  | .null => by decide
  | .bool true => by decide
  | .bool false => by decide
  | .num q => ratRender_noNl q
  | .str s => by
    intro h
    unfold stringify at h
    rcases List.mem_cons.mp h with he | hm
    · exact absurd he (by decide)
    · rcases List.mem_append.mp hm with h2 | h2
      · rcases List.mem_flatMap.mp h2 with ⟨c, _, hc⟩
        exact escC_noNl c hc
      · simp at h2
  | .arr es => by
    intro h
    unfold stringify at h
    rcases List.mem_cons.mp h with he | hm
    · exact absurd he (by decide)
    · rcases List.mem_append.mp hm with h2 | h2
      · exact stringifyElems_noNl es h2
      · simp at h2
  | .obj ms => by
    intro h
    unfold stringify at h
    rcases List.mem_cons.mp h with he | hm
    · exact absurd he (by decide)
    · rcases List.mem_append.mp hm with h2 | h2
      · exact stringifyMems_noNl ms h2
      · simp at h2

theorem stringifyElems_noNl : ∀ (es : List JValue), '\n' ∉ stringifyElems es
  | [] => by simp [stringifyElems]
  | [e] => by
    intro h
    rw [show stringifyElems [e] = stringify e from rfl] at h
    exact stringify_noNl e h
  | e :: e2 :: es => by
    intro h
    rw [show stringifyElems (e :: e2 :: es) = stringify e ++ ',' :: stringifyElems (e2 :: es) from rfl] at h
    rcases List.mem_append.mp h with h2 | h2
    · exact stringify_noNl e h2
    · rcases List.mem_cons.mp h2 with he | hm
      · exact absurd he (by decide)
      · exact stringifyElems_noNl (e2 :: es) hm

theorem stringifyMems_noNl : ∀ (ms : List (Str × JValue)), '\n' ∉ stringifyMems ms
  | [] => by simp [stringifyMems]
  | [(k, v)] => by
    intro h
    rw [show stringifyMems [(k, v)] = '"' :: (k.flatMap escC) ++ '"' :: ':' :: stringify v from rfl] at h
    rcases List.mem_cons.mp h with he | hm
    · exact absurd he (by decide)
    · rcases List.mem_append.mp hm with h2 | h2
      · rcases List.mem_flatMap.mp h2 with ⟨c, _, hc⟩
        exact escC_noNl c hc
      · rcases List.mem_cons.mp h2 with he | hm2
        · exact absurd he (by decide)
        · rcases List.mem_cons.mp hm2 with he | hm3
          · exact absurd he (by decide)
          · exact stringify_noNl v hm3
  | (k, v) :: m2 :: ms => by
    intro h
    rw [show stringifyMems ((k, v) :: m2 :: ms) =
        '"' :: (k.flatMap escC) ++ '"' :: ':' :: stringify v ++ ',' :: stringifyMems (m2 :: ms) from rfl] at h
    rcases List.mem_cons.mp h with he | hm
    · exact absurd he (by decide)
    · rcases List.mem_append.mp hm with h2 | h2
      · rcases List.mem_append.mp h2 with h3 | h3
        · rcases List.mem_flatMap.mp h3 with ⟨c, _, hc⟩
          exact escC_noNl c hc
        · rcases List.mem_cons.mp h3 with he | hm2
          · exact absurd he (by decide)
          · rcases List.mem_cons.mp hm2 with he | hm3
            · exact absurd he (by decide)
            · exact stringify_noNl v hm3
      · rcases List.mem_cons.mp h2 with he | hm4
        · exact absurd he (by decide)
        · exact stringifyMems_noNl (m2 :: ms) hm4

end

end TSON

namespace TSON

/-! ## Line-count preservation lemmas -/

theorem rwF_mem : ∀ (n : Nat) (name repl : Str) (prevW : Bool) (s : Str) (x : Char),
    x ∈ rwF name repl n prevW s → x ∈ s ∨ x ∈ repl := by
  intro n
  induction n with
  | zero =>
    intro _ _ _ s x h
    exact Or.inl h
  | succ n ih =>
    intro name repl prevW s x h
    cases s with
    | nil => simp [rwF] at h
    | cons c r =>
      by_cases hcnd : (!prevW && !name.isEmpty && name.isPrefixOf (c :: r) &&
          boundaryOk ((c :: r).drop name.length)) = true
      · rw [show rwF name repl (n + 1) prevW (c :: r) =
            repl ++ rwF name repl n true ((c :: r).drop name.length) from by
          simp only [rwF]; rw [if_pos hcnd]] at h
        rcases List.mem_append.mp h with h | h
        · exact Or.inr h
        · rcases ih name repl true _ x h with h2 | h2
          · exact Or.inl (List.mem_of_mem_drop h2)
          · exact Or.inr h2
      · rw [show rwF name repl (n + 1) prevW (c :: r) =
            c :: rwF name repl n (isWordChar c) r from by
          simp only [rwF]; rw [if_neg hcnd]] at h
        rcases List.mem_cons.mp h with he | hm
        · exact Or.inl (he ▸ List.mem_cons_self _ _)
        · rcases ih name repl _ r x hm with h2 | h2
          · exact Or.inl (List.mem_cons_of_mem _ h2)
          · exact Or.inr h2

theorem replaceWord_noNl {name repl s : Str} (hs : '\n' ∉ s) (hr : '\n' ∉ repl) :
    '\n' ∉ replaceWord name repl s := by
  intro h
  rcases rwF_mem _ _ _ _ _ _ h with h | h
  · exact hs h
  · exact hr h

theorem substBindings_noNl : ∀ (bnd : List (Str × JValue)) (l : Str), '\n' ∉ l →
    '\n' ∉ substBindings bnd l := by
  intro bnd
  induction bnd with
  | nil =>
    intro l hl
    exact hl
  | cons nv t ih =>
    intro l hl
    have he : substBindings (nv :: t) l = substBindings t (replaceWord nv.1 (stringify nv.2) l) := by
      simp [substBindings, List.foldl]
    rw [he]
    exact ih _ (replaceWord_noNl hl (stringify_noNl nv.2))

theorem constLinesGo_length : ∀ (consts : List (Str × JValue)) (ls : List Str),
    (constLinesGo consts ls).length = ls.length := by
  intro consts ls
  induction ls generalizing consts with
  | nil => rfl
  | cons l t ih =>
    unfold constLinesGo
    cases constMatch (trim l) with
    | some nv => simp [ih]
    | none => simp [ih]

theorem constLinesGo_noNl : ∀ (consts : List (Str × JValue)) (ls : List Str),
    (∀ l ∈ ls, '\n' ∉ l) → ∀ l2 ∈ constLinesGo consts ls, '\n' ∉ l2 := by
  intro consts ls
  induction ls generalizing consts with
  | nil =>
    intro _ l2 h2
    simp [constLinesGo] at h2
  | cons l t ih =>
    intro hin l2 h2
    unfold constLinesGo at h2
    cases hm : constMatch (trim l) with
    | some nv =>
      rw [hm] at h2
      rcases List.mem_cons.mp h2 with he | hmem
      · subst he; simp
      · exact ih _ (fun x hx => hin x (List.mem_cons_of_mem _ hx)) l2 hmem
    | none =>
      rw [hm] at h2
      rcases List.mem_cons.mp h2 with he | hmem
      · subst he
        exact substBindings_noNl consts l (hin l (List.mem_cons_self _ _))
      · exact ih _ (fun x hx => hin x (List.mem_cons_of_mem _ hx)) l2 hmem

theorem lineCount_joinLines {ls : List Str} (hne : ls ≠ []) (hnn : ∀ l ∈ ls, '\n' ∉ l) :
    (splitLines (joinLines ls)).length = ls.length := by
  rw [splitLines_joinLines hne hnn]

theorem removeComments_lineCount (t : Str) :
    (splitLines (removeComments t)).length = (splitLines t).length := by
  unfold removeComments
  rw [lineCount_joinLines, List.length_map]
  · intro he
    exact splitLines_ne_nil t (List.map_eq_nil_iff.mp he)
  · intro l hl
    obtain ⟨l0, hl0, rfl⟩ := List.mem_map.mp hl
    exact removeCommentsLine_noNl (noNl_of_mem_splitLines hl0)

theorem processConstDeclarations_lineCount (t : Str) :
    (splitLines (processConstDeclarations t)).length = (splitLines t).length := by
  unfold processConstDeclarations
  rw [lineCount_joinLines, constLinesGo_length]
  · intro he
    have hlen := congrArg List.length he
    rw [constLinesGo_length] at hlen
    exact splitLines_ne_nil t (List.length_eq_zero.mp hlen)
  · exact constLinesGo_noNl [] (splitLines t) (fun l hl => noNl_of_mem_splitLines hl)

theorem removeImports_lineCount (t : Str) :
    (splitLines (removeImports t)).length = (splitLines t).length := by
  unfold removeImports
  rw [lineCount_joinLines, List.length_map]
  · intro he
    exact splitLines_ne_nil t (List.map_eq_nil_iff.mp he)
  · intro l hl
    obtain ⟨l0, hl0, rfl⟩ := List.mem_map.mp hl
    split
    · simp
    · exact noNl_of_mem_splitLines hl0

theorem importLinesGo_ok : ∀ (ls : List Str) (pf : Str → Opts → PRes) (fs : FS)
    (bd : Str) (fp : Option Str) (st : Bool) (bnd : List (Str × JValue))
    (os : List Str) (ds : List Str),
    importLinesGo pf fs bd fp st bnd ls = .ok (os, ds) →
    (∀ l ∈ ls, '\n' ∉ l) →
    os.length = ls.length ∧ ∀ l ∈ os, '\n' ∉ l := by
  intro ls
  induction ls with
  | nil =>
    intro pf fs bd fp st bnd os ds h _
    unfold importLinesGo at h
    injection h with h2
    injection h2 with h3 h4
    subst h3
    exact ⟨rfl, by simp⟩
  | cons l t ih =>
    intro pf fs bd fp st bnd os ds h hnn
    have htail : ∀ x ∈ t, '\n' ∉ x := fun x hx => hnn x (List.mem_cons_of_mem _ hx)
    unfold importLinesGo at h
    cases him : tsonImportMatch (trim l) with
    | some nv =>
      obtain ⟨name, ip⟩ := nv
      simp only [him] at h
      cases hact : importLineAct pf fs bd fp st bnd name ip with
      | error e =>
        simp only [hact] at h
        exact Except.noConfusion h
      | ok pr1 =>
        obtain ⟨bnd2, ds1⟩ := pr1
        simp only [hact] at h
        cases hrec : importLinesGo pf fs bd fp st bnd2 t with
        | ok pr =>
          obtain ⟨os2, ds2⟩ := pr
          simp only [hrec] at h
          injection h with h2
          injection h2 with h3 h4
          subst h3
          obtain ⟨hl, hn⟩ := ih pf fs bd fp st bnd2 os2 ds2 hrec htail
          refine ⟨by simp [hl], ?_⟩
          intro l2 h2
          rcases List.mem_cons.mp h2 with he | hm
          · subst he; simp
          · exact hn l2 hm
        | error e =>
          simp only [hrec] at h
          exact Except.noConfusion h
    | none =>
      simp only [him] at h
      cases hrec : importLinesGo pf fs bd fp st bnd t with
      | ok pr =>
        obtain ⟨os2, ds2⟩ := pr
        simp only [hrec] at h
        injection h with h2
        injection h2 with h3 h4
        subst h3
        obtain ⟨hl, hn⟩ := ih pf fs bd fp st bnd os2 ds2 hrec htail
        refine ⟨by simp [hl], ?_⟩
        intro l2 h2
        rcases List.mem_cons.mp h2 with he | hm
        · subst he
          exact substBindings_noNl bnd l (hnn l (List.mem_cons_self _ _))
        · exact hn l2 hm
      | error e =>
        simp only [hrec] at h
        exact Except.noConfusion h

theorem processTSONImportsF_lineCount (pf : Str → Opts → PRes) (fs : FS) (bd : Str)
    (fp : Option Str) (st : Bool) (t t2 : Str) (ds : List Str)
    (h : processTSONImportsF pf fs bd fp st t = .ok (t2, ds)) :
    (splitLines t2).length = (splitLines t).length := by
  unfold processTSONImportsF at h
  cases hgo : importLinesGo pf fs bd fp st [] (splitLines t) with
  | ok pr =>
    obtain ⟨os, ds2⟩ := pr
    simp only [hgo] at h
    injection h with h2
    injection h2 with h3 h4
    obtain ⟨hl, hn⟩ := importLinesGo_ok (splitLines t) pf fs bd fp st [] os ds2 hgo
      (fun l hl => noNl_of_mem_splitLines hl)
    subst h3
    rw [lineCount_joinLines ?_ hn, hl]
    intro he
    rw [he] at hl
    exact splitLines_ne_nil t (List.length_eq_zero.mp hl.symm)
  | error e =>
    simp only [hgo] at h
    exact Except.noConfusion h

end TSON

namespace TSON

/-! ## Identity of the pre-passes on inert text -/

theorem substBindings_nil (l : Str) : substBindings [] l = l := rfl

theorem scanLine_copy {l : Str} (inS : Bool) (sc : Char) (bs : Nat)
    (h : scanCut inS sc bs l = false) : scanLine inS sc bs l = l := by
  have h2 := scanLine_append_of_no_cut l [] inS sc bs h rfl
  simpa [scanLine] using h2

theorem removeCommentsLine_inert {l : Str} (hcut : scanCut false ' ' 0 l = false)
    (hws : trimEnd l = l) : removeCommentsLine l = l := by
  unfold removeCommentsLine
  rw [scanLine_copy _ _ _ hcut, hws]

theorem removeComments_inert {t : Str}
    (hcut : ∀ l ∈ splitLines t, scanCut false ' ' 0 l = false)
    (hws : ∀ l ∈ splitLines t, trimEnd l = l) : removeComments t = t := by
  unfold removeComments
  rw [List.map_congr_left (fun l hl => removeCommentsLine_inert (hcut l hl) (hws l hl))]
  have hid : (fun (l : Str) => l) = id := rfl
  rw [hid, List.map_id, joinLines_splitLines]

theorem removeImports_inert {t : Str}
    (h : ∀ l ∈ splitLines t, ¬ (s2l ("import ")).isPrefixOf (trim l) = true) :
    removeImports t = t := by
  unfold removeImports
  have : ∀ l ∈ splitLines t,
      (if (s2l ("import ")).isPrefixOf (trim l) then ([] : Str) else l) = l := by
    intro l hl
    rw [if_neg (h l hl)]
  rw [List.map_congr_left this]
  have hid : (fun (a : Str) => a) = id := rfl
  rw [hid, List.map_id, joinLines_splitLines]

theorem constLinesGo_inert : ∀ (ls : List Str),
    (∀ l ∈ ls, constMatch (trim l) = none) → constLinesGo [] ls = ls := by
  intro ls
  induction ls with
  | nil => intro _; rfl
  | cons l t ih =>
    intro h
    unfold constLinesGo
    rw [h l (List.mem_cons_self _ _), substBindings_nil,
      ih (fun x hx => h x (List.mem_cons_of_mem _ hx))]

theorem processConstDeclarations_inert {t : Str}
    (h : ∀ l ∈ splitLines t, constMatch (trim l) = none) :
    processConstDeclarations t = t := by
  unfold processConstDeclarations
  rw [constLinesGo_inert _ h, joinLines_splitLines]

theorem importLinesGo_inert : ∀ (ls : List Str) (pf : Str → Opts → PRes) (fs : FS)
    (bd : Str) (fp : Option Str) (st : Bool),
    (∀ l ∈ ls, tsonImportMatch (trim l) = none) →
    importLinesGo pf fs bd fp st [] ls = .ok (ls, []) := by
  intro ls
  induction ls with
  | nil => intro _ _ _ _ _ _; rfl
  | cons l t ih =>
    intro pf fs bd fp st h
    unfold importLinesGo
    rw [h l (List.mem_cons_self _ _)]
    rw [ih pf fs bd fp st (fun x hx => h x (List.mem_cons_of_mem _ hx))]
    rw [substBindings_nil]

theorem processTSONImportsF_inert {t : Str} (pf : Str → Opts → PRes) (fs : FS)
    (bd : Str) (fp : Option Str) (st : Bool)
    (h : ∀ l ∈ splitLines t, tsonImportMatch (trim l) = none) :
    processTSONImportsF pf fs bd fp st t = .ok (t, []) := by
  unfold processTSONImportsF
  rw [importLinesGo_inert _ pf fs bd fp st h]
  show Except.ok (joinLines (splitLines t), ([] : List Str)) = _
  rw [joinLines_splitLines]

theorem parseTSONString_inert (fuel : Nat) (fs : FS) (fp : Option Str) (o : Opts) (t : Str)
    (hTC : o.allowTrailingCommas = true)
    (hImp : ∀ l ∈ splitLines t, tsonImportMatch (trim l) = none)
    (hImp2 : ∀ l ∈ splitLines t, ¬ (s2l ("import ")).isPrefixOf (trim l) = true)
    (hCmt : ∀ l ∈ splitLines t, scanCut false ' ' 0 l = false)
    (hWs : ∀ l ∈ splitLines t, trimEnd l = l)
    (hCst : ∀ l ∈ splitLines t, constMatch (trim l) = none) :
    parseTSONString fuel fs fp o t =
      match jsonParse (removeTrailingCommas (quoteKeys t)) with
      | some v => .ok (some v, [])
      | none =>
        if o.strict then .error ⟨.syntaxError, parseErrMsg fp, fp⟩
        else .ok (none, [parseErrMsg fp]) := by
  unfold parseTSONString parseTSONStringF
  have e1 : (if o.allowTSONImports then
      processTSONImportsF (fun p2 o2 => parseTSONFuel fuel fs p2 o2) fs o.baseDir fp o.strict t
    else .ok (t, [])) = .ok (t, []) := by
    split
    · exact processTSONImportsF_inert _ fs o.baseDir fp o.strict hImp
    · rfl
  have e2 : (if o.allowImports then removeImports t else t) = t := by
    split
    · exact removeImports_inert hImp2
    · rfl
  have e3 : (if o.allowComments then removeComments t else t) = t := by
    split
    · exact removeComments_inert hCmt hWs
    · rfl
  have e4 : (if o.allowConst then processConstDeclarations t else t) = t := by
    split
    · exact processConstDeclarations_inert hCst
    · rfl
  simp only [e1, e2, e3, e4, hTC, if_true, eq_self_iff_true]
  cases jsonParse (removeTrailingCommas (quoteKeys t)) with
  | some v => rfl
  | none => rfl

end TSON

namespace TSON

/-! ## Character-class facts about word characters -/

theorem alpha_bounds {c : Char} (h : c.isAlpha = true) :
    (65 ≤ c.toNat ∧ c.toNat ≤ 90) ∨ (97 ≤ c.toNat ∧ c.toNat ≤ 122) := by
  simp only [Char.isAlpha, Char.isUpper, Char.isLower, Bool.or_eq_true, Bool.and_eq_true,
    decide_eq_true_eq] at h
  rcases h with ⟨h1, h2⟩ | ⟨h1, h2⟩
  · exact Or.inl ⟨h1, h2⟩
  · exact Or.inr ⟨h1, h2⟩

theorem digit_bounds {c : Char} (h : c.isDigit = true) : 48 ≤ c.toNat ∧ c.toNat ≤ 57 := by
  simp only [Char.isDigit, Bool.and_eq_true, decide_eq_true_eq] at h
  exact ⟨h.1, h.2⟩

theorem wordChar_codes {c : Char} (h : isWordChar c = true) :
    (48 ≤ c.toNat ∧ c.toNat ≤ 57) ∨ (65 ≤ c.toNat ∧ c.toNat ≤ 90) ∨
    (97 ≤ c.toNat ∧ c.toNat ≤ 122) ∨ c.toNat = 95 := by
  simp only [isWordChar, Bool.or_eq_true, decide_eq_true_eq] at h
  rcases h with h | h
  · simp only [Char.isAlphanum, Bool.or_eq_true] at h
    rcases h with h | h
    · rcases alpha_bounds h with h | h
      · exact Or.inr (Or.inl h)
      · exact Or.inr (Or.inr (Or.inl h))
    · exact Or.inl (digit_bounds h)
  · subst h
    exact Or.inr (Or.inr (Or.inr rfl))

theorem word_not_jsSpace {c : Char} (h : isWordChar c = true) : isJsSpace c = false := by
  have hb := wordChar_codes h
  by_contra hs
  rw [Bool.not_eq_false] at hs
  simp only [isJsSpace, Bool.or_eq_true, decide_eq_true_eq, Bool.and_eq_true] at hs
  rcases hs with ((((((((((((((h2|h2)|h2)|h2)|h2)|h2)|h2)|h2)|h2)|h2)|h2)|h2)|h2)|h2)|h2) <;>
    first
      | omega
      | (rw [h2] at hb; exact absurd hb (by decide))

theorem jsonWs_jsSpace {c : Char} (h : isJsonWs c = true) : isJsSpace c = true := by
  simp only [isJsonWs, Bool.or_eq_true, decide_eq_true_eq] at h
  rcases h with ((h|h)|h)|h <;> subst h <;> decide

theorem word_not_jsonWs {c : Char} (h : isWordChar c = true) : isJsonWs c = false := by
  by_contra hs
  rw [Bool.not_eq_false] at hs
  have h2 := jsonWs_jsSpace hs
  rw [word_not_jsSpace h] at h2
  exact Bool.noConfusion h2

theorem word_ne {c x : Char} (h : isWordChar c = true) (hx : isWordChar x = false) : ¬ c = x := by
  intro he
  rw [he, hx] at h
  exact Bool.noConfusion h

theorem word_toNat_ne {c : Char} (h : isWordChar c = true) {n : Nat}
    (hn : n < 48 ∨ (57 < n ∧ n < 65) ∨ (90 < n ∧ n < 95) ∨ n = 96 ∨ 122 < n) : ¬ c.toNat = n := by
  have hb := wordChar_codes h
  omega

end TSON

namespace TSON

/-! ## Word runs through the pre-pass scanners -/

theorem alpha_word {c : Char} (h : c.isAlpha = true) : isWordChar c = true := by
  simp [isWordChar, Char.isAlphanum, h]

theorem alpha_ne_of_code {c : Char} (h : c.isAlpha = true) {x : Char}
    (hx : x.toNat < 65 ∨ (90 < x.toNat ∧ x.toNat < 97) ∨ 122 < x.toNat) : ¬ c = x := by
  intro he
  have hb := alpha_bounds h
  rw [he] at hb
  omega

theorem alpha_not_digit {c : Char} (h : c.isAlpha = true) : c.isDigit = false := by
  by_contra hd
  rw [Bool.not_eq_false] at hd
  have h1 := alpha_bounds h
  have h2 := digit_bounds hd
  omega

theorem takeWhile_append_all {p : Char → Bool} :
    ∀ (u : Str), (∀ c ∈ u, p c = true) → ∀ {d : Char}, p d = false → ∀ (s : Str),
      List.takeWhile p (u ++ d :: s) = u ∧ List.dropWhile p (u ++ d :: s) = d :: s := by
  intro u
  induction u with
  | nil =>
    intro _ d hd s
    constructor
    · simp [List.takeWhile_cons, hd]
    · simp [List.dropWhile_cons, hd]
  | cons c r ih =>
    intro hall d hd s
    have hc : p c = true := hall c (List.mem_cons_self _ _)
    obtain ⟨ht, hdr⟩ := ih (fun x hx => hall x (List.mem_cons_of_mem _ hx)) hd s
    constructor
    · rw [List.cons_append, List.takeWhile_cons, if_pos hc, ht]
    · rw [List.cons_append, List.dropWhile_cons, if_pos hc, hdr]

theorem scanCut_append_of_no_cut :
    ∀ (u v : Str) (inS : Bool) (sc : Char) (bs : Nat),
      scanCut inS sc bs u = false → headIsSlash v = false →
      scanCut inS sc bs (u ++ v) =
        scanCut (scanSt (inS, sc, bs) u).1 (scanSt (inS, sc, bs) u).2.1
          (scanSt (inS, sc, bs) u).2.2 v := by
  intro u
  induction u with
  | nil =>
    intro v inS sc bs _ _
    rfl
  | cons c u2 ih =>
    intro v inS sc bs hcut hv
    by_cases h1 : (!inS && (c = '"' || c = sq)) = true
    · have ec : scanCut true c (updBs bs c) u2 = false := by
        have : scanCut inS sc bs (c :: u2) = scanCut true c (updBs bs c) u2 := by
          simp only [scanCut]
          rw [if_pos h1]
        rw [← this]; exact hcut
      have es : scanSt (inS, sc, bs) (c :: u2) = scanSt (true, c, updBs bs c) u2 := by
        simp only [scanSt]
        rw [if_pos h1]
      have el : scanCut inS sc bs (c :: (u2 ++ v)) = scanCut true c (updBs bs c) (u2 ++ v) := by
        simp only [scanCut]
        rw [if_pos h1]
      rw [List.cons_append, el, ih v _ _ _ ec hv, es]
    · by_cases h2 : (inS && c = sc) = true
      · by_cases hb : bs % 2 = 0
        · have ec : scanCut false sc (updBs bs c) u2 = false := by
            have : scanCut inS sc bs (c :: u2) = scanCut false sc (updBs bs c) u2 := by
              simp only [scanCut]
              rw [if_neg h1, if_pos h2, if_pos hb]
            rw [← this]; exact hcut
          have es : scanSt (inS, sc, bs) (c :: u2) = scanSt (false, sc, updBs bs c) u2 := by
            simp only [scanSt]
            rw [if_neg h1, if_pos h2, if_pos hb]
          have el : scanCut inS sc bs (c :: (u2 ++ v)) =
              scanCut false sc (updBs bs c) (u2 ++ v) := by
            simp only [scanCut]
            rw [if_neg h1, if_pos h2, if_pos hb]
          rw [List.cons_append, el, ih v _ _ _ ec hv, es]
        · have ec : scanCut true sc (updBs bs c) u2 = false := by
            have : scanCut inS sc bs (c :: u2) = scanCut true sc (updBs bs c) u2 := by
              simp only [scanCut]
              rw [if_neg h1, if_pos h2, if_neg hb]
            rw [← this]; exact hcut
          have es : scanSt (inS, sc, bs) (c :: u2) = scanSt (true, sc, updBs bs c) u2 := by
            simp only [scanSt]
            rw [if_neg h1, if_pos h2, if_neg hb]
          have el : scanCut inS sc bs (c :: (u2 ++ v)) =
              scanCut true sc (updBs bs c) (u2 ++ v) := by
            simp only [scanCut]
            rw [if_neg h1, if_pos h2, if_neg hb]
          rw [List.cons_append, el, ih v _ _ _ ec hv, es]
      · have h3 : ¬ ((!inS && c = '/' && headIsSlash u2) = true) := by
          intro hcon
          have : scanCut inS sc bs (c :: u2) = true := by
            simp only [scanCut]
            rw [if_neg h1, if_neg h2, if_pos hcon]
          rw [this] at hcut
          exact absurd hcut (by simp)
        have h3v : ¬ ((!inS && c = '/' && headIsSlash (u2 ++ v)) = true) := by
          intro hcon
          apply h3
          simp only [Bool.and_eq_true, decide_eq_true_eq] at hcon ⊢
          refine ⟨hcon.1, ?_⟩
          cases u2 with
          | nil =>
            rw [List.nil_append] at hcon
            rw [hv] at hcon
            exact absurd hcon.2 (by simp)
          | cons d t =>
            simpa [headIsSlash] using hcon.2
        have ec : scanCut inS sc (updBs bs c) u2 = false := by
          have : scanCut inS sc bs (c :: u2) = scanCut inS sc (updBs bs c) u2 := by
            simp only [scanCut]
            rw [if_neg h1, if_neg h2, if_neg h3]
          rw [← this]; exact hcut
        have es : scanSt (inS, sc, bs) (c :: u2) = scanSt (inS, sc, updBs bs c) u2 := by
          simp only [scanSt]
          rw [if_neg h1, if_neg h2, if_neg h3]
        have el : scanCut inS sc bs (c :: (u2 ++ v)) =
            scanCut inS sc (updBs bs c) (u2 ++ v) := by
          simp only [scanCut]
          rw [if_neg h1, if_neg h2, if_neg h3v]
        rw [List.cons_append, el, ih v _ _ _ ec hv, es]

theorem scan_word_run :
    ∀ (u : Str), u ≠ [] → (∀ c ∈ u, isWordChar c = true) → ∀ (v : Str) (sc : Char) (bs : Nat),
      scanLine false sc bs (u ++ v) = u ++ scanLine false sc 0 v ∧
      scanCut false sc bs (u ++ v) = scanCut false sc 0 v := by
  intro u
  induction u with
  | nil => intro hne; exact absurd rfl hne
  | cons c u2 ih =>
    intro _ hall v sc bs
    have hcw : isWordChar c = true := hall c (List.mem_cons_self _ _)
    have hq : ¬ c = '"' := word_ne hcw (by decide)
    have hsq : ¬ c = sq := word_ne hcw (by decide)
    have hsl : ¬ c = '/' := word_ne hcw (by decide)
    have hbs : ¬ c = '\\' := word_ne hcw (by decide)
    have hub : updBs bs c = 0 := by simp [updBs, hbs]
    have el : scanLine false sc bs (c :: (u2 ++ v)) = c :: scanLine false sc 0 (u2 ++ v) := by
      simp only [scanLine]
      rw [if_neg (by simp [hq, hsq]), if_neg (by simp), if_neg (by simp [hsl]), hub]
    have ec : scanCut false sc bs (c :: (u2 ++ v)) = scanCut false sc 0 (u2 ++ v) := by
      simp only [scanCut]
      rw [if_neg (by simp [hq, hsq]), if_neg (by simp), if_neg (by simp [hsl]), hub]
    cases u2 with
    | nil =>
      constructor
      · rw [List.cons_append, el]
        rfl
      · rw [List.cons_append, ec]
        rfl
    | cons d t =>
      obtain ⟨ihl, ihc⟩ := ih (by simp) (fun x hx => hall x (List.mem_cons_of_mem _ hx)) v sc 0
      constructor
      · rw [List.cons_append, el, ihl]
        rfl
      · rw [List.cons_append, ec, ihc]

theorem qkAux_word_run :
    ∀ (u : Str), (∀ c ∈ u, isWordChar c = true) → ∀ (w s : Str),
      qkAux w [] (u ++ s) = qkAux (w ++ u) [] s := by
  intro u
  induction u with
  | nil =>
    intro _ w s
    simp
  | cons c r ih =>
    intro hall w s
    have hc : isWordChar c = true := hall c (List.mem_cons_self _ _)
    rw [List.cons_append]
    show qkAux w [] (c :: (r ++ s)) = _
    simp only [qkAux]
    rw [if_pos hc, if_pos trivial, ih (fun x hx => hall x (List.mem_cons_of_mem _ hx)) (w ++ [c]) s,
      List.append_assoc]
    rfl

theorem rt_no_comma : ∀ (s : Str), ',' ∉ s → removeTrailingCommas s = s := by
  intro s
  unfold removeTrailingCommas
  induction s with
  | nil => intro _; rfl
  | cons c r ih =>
    intro h
    have hc : ¬ c = ',' := fun he => h (by simp [he])
    show rtAux none (c :: r) = c :: r
    simp only [rtAux]
    rw [if_neg (by simp [hc]), ih (fun hm => h (List.mem_cons_of_mem _ hm))]

theorem tokF_fail_alpha {c : Char} (ha : c.isAlpha = true)
    (ht : ¬ c = 't') (hf : ¬ c = 'f') (hn : ¬ c = 'n') :
    ∀ (n : Nat) (r : Str), tokF n (c :: r) = none := by
  intro n r
  cases n with
  | zero => rfl
  | succ m =>
    have hw : isJsonWs c = false := word_not_jsonWs (alpha_word ha)
    have h1 : ¬ c = '\x7b' := alpha_ne_of_code ha (by decide)
    have h2 : ¬ c = '\x7d' := alpha_ne_of_code ha (by decide)
    have h3 : ¬ c = '[' := alpha_ne_of_code ha (by decide)
    have h4 : ¬ c = ']' := alpha_ne_of_code ha (by decide)
    have h5 : ¬ c = ':' := alpha_ne_of_code ha (by decide)
    have h6 : ¬ c = ',' := alpha_ne_of_code ha (by decide)
    have h7 : ¬ c = '"' := alpha_ne_of_code ha (by decide)
    have h8 : ¬ c = '-' := alpha_ne_of_code ha (by decide)
    have hd : c.isDigit = false := alpha_not_digit ha
    simp only [tokF]
    rw [hw]
    rw [if_neg (by simp), if_neg h1, if_neg h2, if_neg h3, if_neg h4, if_neg h5, if_neg h6,
      if_neg h7, if_neg (by simp [h8, hd]), if_neg ht, if_neg hf, if_neg hn]

end TSON

namespace TSON

/-! ## The forward-reference declaration line and the failing strict decode -/

theorem qkAux_word_after_space {c : Char} (hc : isWordChar c = true) (w u : Str)
    (hu : ¬ u = []) (r : Str) :
    qkAux w u (c :: r) = w ++ u ++ qkAux [c] [] r := by
  simp only [qkAux]
  rw [if_pos hc, if_neg hu]

theorem constMatch_decl (c0 : Char) (rest : Str)
    (hw : ∀ x ∈ c0 :: rest, isWordChar x = true) :
    constMatch (s2l ("const ") ++ ((c0 :: rest) ++ s2l (" = 1;"))) =
      some (c0 :: rest, s2l ("1;")) := by
  have hc0 : isWordChar c0 = true := hw c0 (List.mem_cons_self _ _)
  have hdl : dropLit (s2l ("const")) (s2l ("const ") ++ ((c0 :: rest) ++ s2l (" = 1;"))) =
      some (' ' :: ((c0 :: rest) ++ s2l (" = 1;"))) := rfl
  have h1 : List.takeWhile isJsSpace (' ' :: ((c0 :: rest) ++ s2l (" = 1;"))) = [' '] := by
    rw [List.takeWhile_cons, if_pos (by decide), List.cons_append, List.takeWhile_cons,
      if_neg (by simp [word_not_jsSpace hc0])]
  have h2 : List.dropWhile isJsSpace (' ' :: ((c0 :: rest) ++ s2l (" = 1;"))) =
      (c0 :: rest) ++ s2l (" = 1;") := by
    rw [List.dropWhile_cons, if_pos (by decide), List.cons_append, List.dropWhile_cons,
      if_neg (by simp [word_not_jsSpace hc0])]
  have hsp := takeWhile_append_all (c0 :: rest) hw
      (show isWordChar ' ' = false by decide) (s2l ("= 1;"))
  have h3 : List.takeWhile isWordChar ((c0 :: rest) ++ s2l (" = 1;")) = c0 :: rest := hsp.1
  have h4 : List.dropWhile isWordChar ((c0 :: rest) ++ s2l (" = 1;")) =
      ' ' :: s2l ("= 1;") := hsp.2
  simp only [constMatch, hdl, h1, h2, h3, h4]
  rfl

theorem tokF_line1_fail {c : Char} (ha : c.isAlpha = true)
    (ht : ¬ c = 't') (hf : ¬ c = 'f') (hn : ¬ c = 'n') (X : Str) :
    ∀ n, tokF n (s2l ("\x7b \"a\": ") ++ (c :: X)) = none := by
  intro n
  match n with
  | 0 => rfl
  | 1 => rfl
  | 2 => rfl
  | 3 => rfl
  | 4 => rfl
  | (m + 5) =>
    have e : tokF (m + 5) (s2l ("\x7b \"a\": ") ++ (c :: X)) =
        ((((tokF m (c :: X)).map (Tok.colon :: ·)).map (Tok.str (s2l ("a")) :: ·)).map
          (Tok.lb :: ·)) := rfl
    rw [e, tokF_fail_alpha ha ht hf hn m X]
    rfl

end TSON

namespace TSON

/-- C6 (corrected): for a forward-referenced constant whose name is a word
made of word characters and starting with a letter other than `t`, `f`, `n`
(so the bare identifier is not itself decodable JSON), the earlier occurrence
is left verbatim by `processConstDeclarations` (the declaration line is
blanked, the value line is unchanged), and the strict parse of the document
fails with the final-decode `SyntaxError`.  The original claim quantified over
every constant name; it fails for names such as `true` that decode on their
own (see the counterexample). -/
theorem c6_forward_reference_amended (c0 : Char) (rest : Str)
    (hw : ∀ x ∈ c0 :: rest, isWordChar x = true)
    (ha : c0.isAlpha = true) (ht : ¬ c0 = 't') (hf : ¬ c0 = 'f') (hn : ¬ c0 = 'n')
    (fuel : Nat) (fs : FS) (fp : Option Str) :
    processConstDeclarations
        ((s2l ("\x7b \"a\": ") ++ ((c0 :: rest) ++ s2l (" \x7d"))) ++ '\n' ::
          (s2l ("const ") ++ ((c0 :: rest) ++ s2l (" = 1;")))) =
      (s2l ("\x7b \"a\": ") ++ ((c0 :: rest) ++ s2l (" \x7d"))) ++ ['\n'] ∧
    parseTSONString fuel fs fp { strict := true }
        ((s2l ("\x7b \"a\": ") ++ ((c0 :: rest) ++ s2l (" \x7d"))) ++ '\n' ::
          (s2l ("const ") ++ ((c0 :: rest) ++ s2l (" = 1;")))) =
      .error ⟨.syntaxError, parseErrMsg fp, fp⟩ := by
  have hc0 : isWordChar c0 = true := hw c0 (List.mem_cons_self _ _)
  have hnl1 : '\n' ∉ s2l ("\x7b \"a\": ") ++ ((c0 :: rest) ++ s2l (" \x7d")) := by
    intro hm
    rcases List.mem_append.mp hm with h | h
    · exact absurd h (by decide)
    · rcases List.mem_append.mp h with h2 | h2
      · exact absurd (hw _ h2) (by decide)
      · exact absurd h2 (by decide)
  have hnl2 : '\n' ∉ s2l ("const ") ++ ((c0 :: rest) ++ s2l (" = 1;")) := by
    intro hm
    rcases List.mem_append.mp hm with h | h
    · exact absurd h (by decide)
    · rcases List.mem_append.mp h with h2 | h2
      · exact absurd (hw _ h2) (by decide)
      · exact absurd h2 (by decide)
  have hsplit : splitLines
      ((s2l ("\x7b \"a\": ") ++ ((c0 :: rest) ++ s2l (" \x7d"))) ++ '\n' ::
        (s2l ("const ") ++ ((c0 :: rest) ++ s2l (" = 1;")))) =
      [s2l ("\x7b \"a\": ") ++ ((c0 :: rest) ++ s2l (" \x7d")),
       s2l ("const ") ++ ((c0 :: rest) ++ s2l (" = 1;"))] := by
    rw [splitLines_append_nl hnl1, splitLines_of_noNl hnl2]
  have hdw1 : List.dropWhile isJsSpace
      (s2l ("\x7b \"a\": ") ++ ((c0 :: rest) ++ s2l (" \x7d"))) =
      s2l ("\x7b \"a\": ") ++ ((c0 :: rest) ++ s2l (" \x7d")) := rfl
  have hsh1 : s2l ("\x7b \"a\": ") ++ ((c0 :: rest) ++ s2l (" \x7d")) =
      (s2l ("\x7b \"a\": ") ++ ((c0 :: rest) ++ [' '])) ++ ['\x7d'] := by
    rw [List.append_assoc, List.append_assoc]
    rfl
  have hte1 : trimEnd (s2l ("\x7b \"a\": ") ++ ((c0 :: rest) ++ s2l (" \x7d"))) =
      s2l ("\x7b \"a\": ") ++ ((c0 :: rest) ++ s2l (" \x7d")) := by
    rw [hsh1, trimEnd_snoc_nonws _ (by decide)]
  have htr1 : trim (s2l ("\x7b \"a\": ") ++ ((c0 :: rest) ++ s2l (" \x7d"))) =
      s2l ("\x7b \"a\": ") ++ ((c0 :: rest) ++ s2l (" \x7d")) := by
    unfold trim
    rw [hdw1]
    exact hte1
  have hdw2 : List.dropWhile isJsSpace
      (s2l ("const ") ++ ((c0 :: rest) ++ s2l (" = 1;"))) =
      s2l ("const ") ++ ((c0 :: rest) ++ s2l (" = 1;")) := rfl
  have hsh2 : s2l ("const ") ++ ((c0 :: rest) ++ s2l (" = 1;")) =
      (s2l ("const ") ++ ((c0 :: rest) ++ s2l (" = 1"))) ++ [';'] := by
    rw [List.append_assoc, List.append_assoc]
    rfl
  have hte2 : trimEnd (s2l ("const ") ++ ((c0 :: rest) ++ s2l (" = 1;"))) =
      s2l ("const ") ++ ((c0 :: rest) ++ s2l (" = 1;")) := by
    rw [hsh2, trimEnd_snoc_nonws _ (by decide)]
  have htr2 : trim (s2l ("const ") ++ ((c0 :: rest) ++ s2l (" = 1;"))) =
      s2l ("const ") ++ ((c0 :: rest) ++ s2l (" = 1;")) := by
    unfold trim
    rw [hdw2]
    exact hte2
  have him : ∀ l ∈ splitLines
      ((s2l ("\x7b \"a\": ") ++ ((c0 :: rest) ++ s2l (" \x7d"))) ++ '\n' ::
        (s2l ("const ") ++ ((c0 :: rest) ++ s2l (" = 1;")))),
      tsonImportMatch (trim l) = none := by
    intro l hl
    rw [hsplit] at hl
    simp only [List.mem_cons, List.not_mem_nil, or_false] at hl
    rcases hl with h | h
    · rw [h, htr1]
      rfl
    · rw [h, htr2]
      rfl
  have him2 : ∀ l ∈ splitLines
      ((s2l ("\x7b \"a\": ") ++ ((c0 :: rest) ++ s2l (" \x7d"))) ++ '\n' ::
        (s2l ("const ") ++ ((c0 :: rest) ++ s2l (" = 1;")))),
      ¬ (s2l ("import ")).isPrefixOf (trim l) = true := by
    intro l hl
    rw [hsplit] at hl
    simp only [List.mem_cons, List.not_mem_nil, or_false] at hl
    rcases hl with h | h
    · rw [h, htr1]
      intro hcon
      exact Bool.noConfusion hcon
    · rw [h, htr2]
      intro hcon
      exact Bool.noConfusion hcon
  have hslne : ¬ c0 = '/' := word_ne hc0 (by decide)
  have hsl1 : headIsSlash ((c0 :: rest) ++ s2l (" \x7d")) = false := by
    rw [List.cons_append]
    simp [headIsSlash, hslne]
  have hsl2 : headIsSlash ((c0 :: rest) ++ s2l (" = 1;")) = false := by
    rw [List.cons_append]
    simp [headIsSlash, hslne]
  have hcut1 : scanCut false ' ' 0 (s2l ("\x7b \"a\": ") ++ ((c0 :: rest) ++ s2l (" \x7d"))) =
      false := by
    rw [scanCut_append_of_no_cut (s2l ("\x7b \"a\": ")) ((c0 :: rest) ++ s2l (" \x7d"))
      false ' ' 0 (by decide) hsl1]
    show scanCut false '"' 0 ((c0 :: rest) ++ s2l (" \x7d")) = false
    rw [(scan_word_run (c0 :: rest) (by simp) hw (s2l (" \x7d")) '"' 0).2]
    rfl
  have hcut2 : scanCut false ' ' 0 (s2l ("const ") ++ ((c0 :: rest) ++ s2l (" = 1;"))) =
      false := by
    rw [scanCut_append_of_no_cut (s2l ("const ")) ((c0 :: rest) ++ s2l (" = 1;"))
      false ' ' 0 (by decide) hsl2]
    show scanCut false ' ' 0 ((c0 :: rest) ++ s2l (" = 1;")) = false
    rw [(scan_word_run (c0 :: rest) (by simp) hw (s2l (" = 1;")) ' ' 0).2]
    rfl
  have hCmt : ∀ l ∈ splitLines
      ((s2l ("\x7b \"a\": ") ++ ((c0 :: rest) ++ s2l (" \x7d"))) ++ '\n' ::
        (s2l ("const ") ++ ((c0 :: rest) ++ s2l (" = 1;")))),
      scanCut false ' ' 0 l = false := by
    intro l hl
    rw [hsplit] at hl
    simp only [List.mem_cons, List.not_mem_nil, or_false] at hl
    rcases hl with h | h
    · rw [h]; exact hcut1
    · rw [h]; exact hcut2
  have hWs : ∀ l ∈ splitLines
      ((s2l ("\x7b \"a\": ") ++ ((c0 :: rest) ++ s2l (" \x7d"))) ++ '\n' ::
        (s2l ("const ") ++ ((c0 :: rest) ++ s2l (" = 1;")))),
      trimEnd l = l := by
    intro l hl
    rw [hsplit] at hl
    simp only [List.mem_cons, List.not_mem_nil, or_false] at hl
    rcases hl with h | h
    · rw [h]; exact hte1
    · rw [h]; exact hte2
  have hcm1 : constMatch (trim (s2l ("\x7b \"a\": ") ++ ((c0 :: rest) ++ s2l (" \x7d")))) =
      none := by
    rw [htr1]
    rfl
  have hcm2 : constMatch (trim (s2l ("const ") ++ ((c0 :: rest) ++ s2l (" = 1;")))) =
      some (c0 :: rest, s2l ("1;")) := by
    rw [htr2]
    exact constMatch_decl c0 rest hw
  have hconst : processConstDeclarations
      ((s2l ("\x7b \"a\": ") ++ ((c0 :: rest) ++ s2l (" \x7d"))) ++ '\n' ::
        (s2l ("const ") ++ ((c0 :: rest) ++ s2l (" = 1;")))) =
      (s2l ("\x7b \"a\": ") ++ ((c0 :: rest) ++ s2l (" \x7d"))) ++ ['\n'] := by
    unfold processConstDeclarations
    rw [hsplit]
    simp only [constLinesGo, hcm1, hcm2, substBindings_nil]
    rfl
  have hform : (s2l ("\x7b \"a\": ") ++ ((c0 :: rest) ++ s2l (" \x7d"))) ++ ['\n'] =
      s2l ("\x7b \"a\": ") ++ ((c0 :: rest) ++ (' ' :: '\x7d' :: '\n' :: [])) := by
    rw [List.append_assoc, List.append_assoc]
    rfl
  have hqk : quoteKeys ((s2l ("\x7b \"a\": ") ++ ((c0 :: rest) ++ s2l (" \x7d"))) ++ ['\n']) =
      (s2l ("\x7b \"a\": ") ++ ((c0 :: rest) ++ s2l (" \x7d"))) ++ ['\n'] := by
    rw [hform]
    show qkAux [] [] (s2l ("\x7b \"a\": ") ++ ((c0 :: rest) ++ (' ' :: '\x7d' :: '\n' :: []))) = _
    have e1 : qkAux [] []
        (s2l ("\x7b \"a\": ") ++ ((c0 :: rest) ++ (' ' :: '\x7d' :: '\n' :: []))) =
        s2l ("\x7b \"a\":") ++
          qkAux [] [' '] (c0 :: (rest ++ (' ' :: '\x7d' :: '\n' :: []))) := rfl
    rw [e1, qkAux_word_after_space hc0 [] [' '] (by simp)
      (rest ++ (' ' :: '\x7d' :: '\n' :: []))]
    rw [qkAux_word_run rest (fun x hx => hw x (List.mem_cons_of_mem _ hx)) [c0]
      (' ' :: '\x7d' :: '\n' :: [])]
    have e2 : qkAux ([c0] ++ rest) [] (' ' :: '\x7d' :: '\n' :: []) =
        ((c0 :: rest) ++ [' ']) ++ ('\x7d' :: '\n' :: []) := rfl
    rw [e2]
    simp only [List.append_assoc, List.nil_append, List.cons_append]
    rfl
  have hnc : ',' ∉ (s2l ("\x7b \"a\": ") ++ ((c0 :: rest) ++ s2l (" \x7d"))) ++ ['\n'] := by
    intro hm
    rcases List.mem_append.mp hm with h | h
    · rcases List.mem_append.mp h with h2 | h2
      · exact absurd h2 (by decide)
      · rcases List.mem_append.mp h2 with h3 | h3
        · exact absurd (hw _ h3) (by decide)
        · exact absurd h3 (by decide)
    · exact absurd h (by decide)
  have hrt : removeTrailingCommas
      ((s2l ("\x7b \"a\": ") ++ ((c0 :: rest) ++ s2l (" \x7d"))) ++ ['\n']) =
      (s2l ("\x7b \"a\": ") ++ ((c0 :: rest) ++ s2l (" \x7d"))) ++ ['\n'] :=
    rt_no_comma _ hnc
  have hjp : jsonParse ((s2l ("\x7b \"a\": ") ++ ((c0 :: rest) ++ s2l (" \x7d"))) ++ ['\n']) =
      none := by
    rw [hform]
    unfold jsonParse tokenize
    rw [List.cons_append]
    rw [tokF_line1_fail ha ht hf hn (rest ++ (' ' :: '\x7d' :: '\n' :: [])) _]
  refine ⟨hconst, ?_⟩
  have e1 : processTSONImportsF (fun p2 o2 => parseTSONFuel fuel fs p2 o2) fs ['/'] fp true
      ((s2l ("\x7b \"a\": ") ++ ((c0 :: rest) ++ s2l (" \x7d"))) ++ '\n' ::
      (s2l ("const ") ++ ((c0 :: rest) ++ s2l (" = 1;")))) = .ok (((s2l ("\x7b \"a\": ") ++ ((c0 :: rest) ++ s2l (" \x7d"))) ++ '\n' ::
      (s2l ("const ") ++ ((c0 :: rest) ++ s2l (" = 1;")))), []) :=
    processTSONImportsF_inert _ _ _ _ _ him
  have e2 : removeImports ((s2l ("\x7b \"a\": ") ++ ((c0 :: rest) ++ s2l (" \x7d"))) ++ '\n' ::
      (s2l ("const ") ++ ((c0 :: rest) ++ s2l (" = 1;")))) = ((s2l ("\x7b \"a\": ") ++ ((c0 :: rest) ++ s2l (" \x7d"))) ++ '\n' ::
      (s2l ("const ") ++ ((c0 :: rest) ++ s2l (" = 1;")))) :=
    removeImports_inert him2
  have e3 : removeComments ((s2l ("\x7b \"a\": ") ++ ((c0 :: rest) ++ s2l (" \x7d"))) ++ '\n' ::
      (s2l ("const ") ++ ((c0 :: rest) ++ s2l (" = 1;")))) = ((s2l ("\x7b \"a\": ") ++ ((c0 :: rest) ++ s2l (" \x7d"))) ++ '\n' ::
      (s2l ("const ") ++ ((c0 :: rest) ++ s2l (" = 1;")))) :=
    removeComments_inert hCmt hWs
  unfold parseTSONString parseTSONStringF
  simp only [if_true, e1, e2, e3, hconst, hqk, hrt, hjp]

end TSON

namespace TSON

/-! ## Missing-import behaviour -/

theorem importLineAct_missing (pf : Str → Opts → PRes) (fs : FS) (bd : Str) (fp : Option Str)
    (st : Bool) (bnd : List (Str × JValue)) (name ip : Str)
    (hmiss : fsLookup fs (if isAbsolute ip then ip else resolvePath bd ip) = none) :
    importLineAct pf fs bd fp st bnd name ip =
      if st then
        .error ⟨.importParseFailure,
          wrapImportMsg ip
            (importNotFoundMsg ip (if isAbsolute ip then ip else resolvePath bd ip)), fp⟩
      else .ok (bnd, [importNotFoundMsg ip
        (if isAbsolute ip then ip else resolvePath bd ip)]) := by
  simp only [importLineAct, hmiss]

/-- C5 (corrected): importing a path that resolves to no file of the
filesystem makes the strict parse fail with an `importParseFailure` error —
the inner missing-file throw is caught by the surrounding `try`/`catch` and
rewrapped as `Failed to import TSON file ...: TSON import file not found ...`,
which still references the unresolved path — while the lenient parse
continues with the binding left undefined, logs the missing-import
diagnostic, and here (the document's value references the import) decodes to
the absent result with a final parse-error diagnostic.  The original claim
promised a plain ImportNotFound error in strict mode and an absent result in
lenient mode for every document; the counterexample shows a lenient parse
returning a decoded value. -/
theorem c5_missing_import_amended (fuel : Nat) (fs : FS) (fp : Option Str)
    (hmiss : fsLookup fs (s2l ("/missing.tson")) = none) :
    parseTSONString fuel fs fp { strict := true }
        (s2l ("import x from \"./missing.tson\";\n\x7b \"v\": x \x7d")) =
      .error ⟨.importParseFailure,
        wrapImportMsg (s2l ("./missing.tson"))
          (importNotFoundMsg (s2l ("./missing.tson")) (s2l ("/missing.tson"))), fp⟩ ∧
    List.IsInfix (s2l ("TSON import file not found"))
        (wrapImportMsg (s2l ("./missing.tson"))
          (importNotFoundMsg (s2l ("./missing.tson")) (s2l ("/missing.tson")))) ∧
    List.IsInfix (s2l ("./missing.tson"))
        (wrapImportMsg (s2l ("./missing.tson"))
          (importNotFoundMsg (s2l ("./missing.tson")) (s2l ("/missing.tson")))) ∧
    parseTSONString fuel fs fp { strict := false }
        (s2l ("import x from \"./missing.tson\";\n\x7b \"v\": x \x7d")) =
      .ok (none, [importNotFoundMsg (s2l ("./missing.tson")) (s2l ("/missing.tson")),
        parseErrMsg fp]) := by
  have h1 : tsonImportMatch (trim (s2l ("import x from \"./missing.tson\";"))) =
      some (s2l ("x"), s2l ("./missing.tson")) := rfl
  have h2 : tsonImportMatch (trim (s2l ("\x7b \"v\": x \x7d"))) = none := rfl
  refine ⟨?_, by decide, by decide, ?_⟩
  · have hact : importLineAct (fun p2 o2 => parseTSONFuel fuel fs p2 o2) fs ['/'] fp true []
        (s2l ("x")) (s2l ("./missing.tson")) =
        .error ⟨.importParseFailure,
          wrapImportMsg (s2l ("./missing.tson"))
            (importNotFoundMsg (s2l ("./missing.tson")) (s2l ("/missing.tson"))), fp⟩ := by
      rw [importLineAct_missing _ _ _ _ _ _ _ _ hmiss]
      rfl
    have hilg : importLinesGo (fun p2 o2 => parseTSONFuel fuel fs p2 o2) fs ['/'] fp true []
        [s2l ("import x from \"./missing.tson\";"), s2l ("\x7b \"v\": x \x7d")] =
        .error ⟨.importParseFailure,
          wrapImportMsg (s2l ("./missing.tson"))
            (importNotFoundMsg (s2l ("./missing.tson")) (s2l ("/missing.tson"))), fp⟩ := by
      simp only [importLinesGo, h1, hact]
    have hpti : processTSONImportsF (fun p2 o2 => parseTSONFuel fuel fs p2 o2) fs ['/'] fp true
        (s2l ("import x from \"./missing.tson\";\n\x7b \"v\": x \x7d")) =
        .error ⟨.importParseFailure,
          wrapImportMsg (s2l ("./missing.tson"))
            (importNotFoundMsg (s2l ("./missing.tson")) (s2l ("/missing.tson"))), fp⟩ := by
      unfold processTSONImportsF
      rw [show splitLines (s2l ("import x from \"./missing.tson\";\n\x7b \"v\": x \x7d")) =
        [s2l ("import x from \"./missing.tson\";"), s2l ("\x7b \"v\": x \x7d")] from rfl]
      rw [hilg]
    unfold parseTSONString parseTSONStringF
    simp only [if_true, hpti]
  · have hact2 : importLineAct (fun p2 o2 => parseTSONFuel fuel fs p2 o2) fs ['/'] fp false []
        (s2l ("x")) (s2l ("./missing.tson")) =
        .ok ([], [importNotFoundMsg (s2l ("./missing.tson")) (s2l ("/missing.tson"))]) := by
      rw [importLineAct_missing _ _ _ _ _ _ _ _ hmiss]
      rfl
    have hilg2 : importLinesGo (fun p2 o2 => parseTSONFuel fuel fs p2 o2) fs ['/'] fp false []
        [s2l ("import x from \"./missing.tson\";"), s2l ("\x7b \"v\": x \x7d")] =
        .ok ([[], s2l ("\x7b \"v\": x \x7d")],
          [importNotFoundMsg (s2l ("./missing.tson")) (s2l ("/missing.tson"))]) := by
      simp only [importLinesGo, h1, hact2, h2, substBindings_nil, List.append_nil]
    have hpti2 : processTSONImportsF (fun p2 o2 => parseTSONFuel fuel fs p2 o2) fs ['/'] fp false
        (s2l ("import x from \"./missing.tson\";\n\x7b \"v\": x \x7d")) =
        .ok (s2l ("\n\x7b \"v\": x \x7d"),
          [importNotFoundMsg (s2l ("./missing.tson")) (s2l ("/missing.tson"))]) := by
      unfold processTSONImportsF
      rw [show splitLines (s2l ("import x from \"./missing.tson\";\n\x7b \"v\": x \x7d")) =
        [s2l ("import x from \"./missing.tson\";"), s2l ("\x7b \"v\": x \x7d")] from rfl]
      rw [hilg2]
      rfl
    unfold parseTSONString parseTSONStringF
    simp only [if_true, hpti2]
    rfl

end TSON

namespace TSON

/-! ## Composition laws for the trailing-comma scanner -/

theorem rt_split : ∀ (Y : Str) (st : Option Str) (Z : Str),
    rtAux st (Y ++ Z) = rtRun st Y ++ rtAux (rtSt st Y) Z := by
  intro Y
  induction Y with
  | nil =>
    intro st Z
    match st with
    | none => rfl
    | some u => rfl
  | cons c r ih =>
    intro st Z
    match st with
    | none =>
      rw [List.cons_append]
      simp only [rtAux, rtRun, rtSt]
      by_cases hc : c = ','
      · rw [if_pos hc, if_pos hc, if_pos hc, ih]
      · rw [if_neg hc, if_neg hc, if_neg hc, ih]
        rfl
    | some u =>
      rw [List.cons_append]
      simp only [rtAux, rtRun, rtSt]
      by_cases h1 : isJsSpace c = true
      · rw [if_pos h1, if_pos h1, if_pos h1, ih]
      · by_cases h2 : (c = '\x7d' || c = ']') = true
        · rw [if_neg h1, if_neg h1, if_neg h1, if_pos h2, if_pos h2, if_pos h2, ih]
          simp [List.append_assoc]
        · by_cases h3 : c = ','
          · rw [if_neg h1, if_neg h1, if_neg h1, if_neg h2, if_neg h2, if_neg h2,
              if_pos h3, if_pos h3, if_pos h3, ih]
            simp [List.append_assoc]
          · rw [if_neg h1, if_neg h1, if_neg h1, if_neg h2, if_neg h2, if_neg h2,
              if_neg h3, if_neg h3, if_neg h3, ih]
            simp [List.append_assoc]

theorem rt_run_eof : ∀ (Y : Str) (st : Option Str),
    rtAux st Y = rtRun st Y ++
      (match rtSt st Y with | none => [] | some u => ',' :: u) := by
  intro Y
  induction Y with
  | nil =>
    intro st
    match st with
    | none => rfl
    | some u => rfl
  | cons c r ih =>
    intro st
    match st with
    | none =>
      simp only [rtAux, rtRun, rtSt]
      by_cases hc : c = ','
      · rw [if_pos hc, if_pos hc, if_pos hc, ih]
      · rw [if_neg hc, if_neg hc, if_neg hc, ih]
        rfl
    | some u =>
      simp only [rtAux, rtRun, rtSt]
      by_cases h1 : isJsSpace c = true
      · rw [if_pos h1, if_pos h1, if_pos h1, ih]
      · by_cases h2 : (c = '\x7d' || c = ']') = true
        · rw [if_neg h1, if_neg h1, if_neg h1, if_pos h2, if_pos h2, if_pos h2, ih]
          simp [List.append_assoc]
        · by_cases h3 : c = ','
          · rw [if_neg h1, if_neg h1, if_neg h1, if_neg h2, if_neg h2, if_neg h2,
              if_pos h3, if_pos h3, if_pos h3, ih]
            simp [List.append_assoc]
          · rw [if_neg h1, if_neg h1, if_neg h1, if_neg h2, if_neg h2, if_neg h2,
              if_neg h3, if_neg h3, if_neg h3, ih]
            simp [List.append_assoc]

theorem rt_pending_close : ∀ (ws : Str), (∀ x ∈ ws, isJsSpace x = true) →
    ∀ (u : Str) {cl : Char}, (cl = '\x7d' ∨ cl = ']') →
    rtAux (some u) (ws ++ [cl]) = u ++ (ws ++ [cl]) := by
  intro ws
  induction ws with
  | nil =>
    intro _ u cl hcl
    have hns : isJsSpace cl = false := by
      rcases hcl with h | h <;> subst h <;> decide
    have hcls : (cl = '\x7d' || cl = ']') = true := by
      rcases hcl with h | h <;> simp [h]
    show rtAux (some u) (cl :: []) = _
    simp only [rtAux]
    rw [if_neg (by simp [hns]), if_pos hcls]
    rfl
  | cons w rest ih =>
    intro hall u cl hcl
    have hw : isJsSpace w = true := hall w (List.mem_cons_self _ _)
    rw [List.cons_append]
    simp only [rtAux]
    rw [if_pos hw, ih (fun x hx => hall x (List.mem_cons_of_mem _ hx)) (u ++ [w]) hcl]
    simp [List.append_assoc]

theorem rt_clean_comma (Y : Str) (hYr : rtAux none Y = Y) (hYs : rtSt none Y = none)
    (ws : Str) (hws : ∀ x ∈ ws, isJsSpace x = true) {cl : Char}
    (hcl : cl = '\x7d' ∨ cl = ']') :
    removeTrailingCommas (Y ++ ',' :: (ws ++ [cl])) = Y ++ (ws ++ [cl]) ∧
    removeTrailingCommas (Y ++ [cl]) = Y ++ [cl] := by
  have hrun : rtRun none Y = Y := by
    have h := rt_run_eof Y none
    rw [hYs] at h
    have h2 : rtAux none Y = rtRun none Y ++ [] := h
    rw [List.append_nil] at h2
    exact h2.symm.trans hYr
  have hclne : ¬ cl = ',' := by
    rcases hcl with h | h <;> subst h <;> decide
  constructor
  · unfold removeTrailingCommas
    rw [rt_split, hYs, hrun]
    have hstep : rtAux none (',' :: (ws ++ [cl])) = rtAux (some []) (ws ++ [cl]) := by
      simp only [rtAux]
      rw [if_pos trivial]
    rw [hstep, rt_pending_close ws hws [] hcl]
    rfl
  · unfold removeTrailingCommas
    rw [rt_split, hYs, hrun]
    have hone : rtAux none [cl] = [cl] := by
      simp only [rtAux]
      rw [if_neg hclne]
    rw [hone]

end TSON

namespace TSON

/-! ## Splitting the key-quoting scan at a flushing character -/

theorem qkAux_split : ∀ (s w u : Str) {d : Char}, isWordChar d = false →
    isJsSpace d = false → ¬ d = ':' → ∀ (tail : Str),
    qkAux w u (s ++ d :: tail) = qkAux w u s ++ d :: qkAux [] [] tail := by
  intro s
  induction s with
  | nil =>
    intro w u d hd1 hd2 hd3 tail
    rw [List.nil_append]
    simp only [qkAux]
    rw [if_neg (by simp [hd1]), if_neg (by simp [hd2]), if_neg hd3]
  | cons c s2 ih =>
    intro w u d hd1 hd2 hd3 tail
    rw [List.cons_append]
    simp only [qkAux]
    by_cases h1 : isWordChar c = true
    · by_cases h2 : u = []
      · rw [if_pos h1, if_pos h1, if_pos h2, if_pos h2, ih _ _ hd1 hd2 hd3]
      · rw [if_pos h1, if_pos h1, if_neg h2, if_neg h2, ih _ _ hd1 hd2 hd3]
        simp [List.append_assoc]
    · by_cases h3 : isJsSpace c = true
      · rw [if_neg h1, if_neg h1, if_pos h3, if_pos h3, ih _ _ hd1 hd2 hd3]
      · by_cases h4 : c = ':'
        · by_cases h5 : w = []
          · rw [if_neg h1, if_neg h1, if_neg h3, if_neg h3, if_pos h4, if_pos h4,
              if_pos h5, if_pos h5, ih _ _ hd1 hd2 hd3]
            simp [List.append_assoc]
          · rw [if_neg h1, if_neg h1, if_neg h3, if_neg h3, if_pos h4, if_pos h4,
              if_neg h5, if_neg h5, ih _ _ hd1 hd2 hd3]
            simp [List.append_assoc]
        · rw [if_neg h1, if_neg h1, if_neg h3, if_neg h3, if_neg h4, if_neg h4,
            ih _ _ hd1 hd2 hd3]
          simp [List.append_assoc]

/-- C4 (corrected): the trailing-comma law restricted to documents the
trailing-comma scanner is otherwise inert on.  First two conjuncts: on any
text `Y` that the normalizer copies unchanged with no pending comma at its
end, a single appended trailing comma (possibly followed by whitespace)
before the closing brace or bracket is removed exactly.  Third conjunct: for
a document `X` that the other passes leave alone and whose quoted form the
normalizer copies, the full parses of `X,}` and `X}` agree.  The original
claim quantified over every body `B` whose plain form decodes; it fails for
`B` ending in a comma, where `{B}` decodes through the pipeline but `{B,}`
does not (see the counterexample). -/
theorem c4_trailing_comma_amended (fuel : Nat) (fs : FS) (fp : Option Str) (o : Opts)
    (X : Str) {cl : Char} (hcl : cl = '\x7d' ∨ cl = ']')
    (Y : Str) (hYr : rtAux none Y = Y) (hYs : rtSt none Y = none)
    (ws : Str) (hws : ∀ x ∈ ws, isJsSpace x = true)
    (hTC : o.allowTrailingCommas = true)
    (hImp1 : ∀ l ∈ splitLines (X ++ ',' :: [cl]), tsonImportMatch (trim l) = none)
    (hImp1b : ∀ l ∈ splitLines (X ++ ',' :: [cl]),
      ¬ (s2l ("import ")).isPrefixOf (trim l) = true)
    (hCmt1 : ∀ l ∈ splitLines (X ++ ',' :: [cl]), scanCut false ' ' 0 l = false)
    (hWs1 : ∀ l ∈ splitLines (X ++ ',' :: [cl]), trimEnd l = l)
    (hCst1 : ∀ l ∈ splitLines (X ++ ',' :: [cl]), constMatch (trim l) = none)
    (hImp2 : ∀ l ∈ splitLines (X ++ [cl]), tsonImportMatch (trim l) = none)
    (hImp2b : ∀ l ∈ splitLines (X ++ [cl]),
      ¬ (s2l ("import ")).isPrefixOf (trim l) = true)
    (hCmt2 : ∀ l ∈ splitLines (X ++ [cl]), scanCut false ' ' 0 l = false)
    (hWs2 : ∀ l ∈ splitLines (X ++ [cl]), trimEnd l = l)
    (hCst2 : ∀ l ∈ splitLines (X ++ [cl]), constMatch (trim l) = none)
    (hQr : rtAux none (quoteKeys X) = quoteKeys X)
    (hQs : rtSt none (quoteKeys X) = none) :
    removeTrailingCommas (Y ++ ',' :: (ws ++ [cl])) = Y ++ (ws ++ [cl]) ∧
    removeTrailingCommas (Y ++ [cl]) = Y ++ [cl] ∧
    parseTSONString fuel fs fp o (X ++ ',' :: [cl]) =
      parseTSONString fuel fs fp o (X ++ [cl]) := by
  obtain ⟨hA, hB⟩ := rt_clean_comma Y hYr hYs ws hws hcl
  refine ⟨hA, hB, ?_⟩
  have hclw : isWordChar cl = false := by rcases hcl with h | h <;> subst h <;> decide
  have hclsp : isJsSpace cl = false := by rcases hcl with h | h <;> subst h <;> decide
  have hclco : ¬ cl = ':' := by rcases hcl with h | h <;> subst h <;> decide
  have hq1 : quoteKeys (X ++ ',' :: [cl]) = quoteKeys X ++ ',' :: [cl] := by
    unfold quoteKeys
    rw [qkAux_split X [] [] (by decide) (by decide) (by decide) [cl]]
    have hone : qkAux [] [] [cl] = [cl] := by
      simp only [qkAux]
      rw [if_neg (by simp [hclw]), if_neg (by simp [hclsp]), if_neg hclco]
      rfl
    rw [hone]
  have hq2 : quoteKeys (X ++ [cl]) = quoteKeys X ++ [cl] := by
    unfold quoteKeys
    rw [qkAux_split X [] [] hclw hclsp hclco []]
    rw [show qkAux ([] : Str) ([] : Str) ([] : Str) = [] from rfl]
  have hr1 : removeTrailingCommas (quoteKeys X ++ ',' :: [cl]) = quoteKeys X ++ [cl] := by
    have h := (rt_clean_comma (quoteKeys X) hQr hQs []
      (by intro x hx; cases hx) hcl).1
    simpa using h
  have hr2 : removeTrailingCommas (quoteKeys X ++ [cl]) = quoteKeys X ++ [cl] :=
    (rt_clean_comma (quoteKeys X) hQr hQs [] (by intro x hx; cases hx) hcl).2
  rw [parseTSONString_inert fuel fs fp o _ hTC hImp1 hImp1b hCmt1 hWs1 hCst1,
    parseTSONString_inert fuel fs fp o _ hTC hImp2 hImp2b hCmt2 hWs2 hCst2,
    hq1, hq2, hr1, hr2]

end TSON

namespace TSON

/-! ## The claims -/

/-- C1 (code bug): the pipeline on `const P = 8080;` over `\x7b port: P \x7d`
binds `P` to the string "8080", not the number 8080: the declaration regex's
greedy `(.+)` captures the trailing semicolon, `8080;` fails the strict JSON
decode, and the fallback strips the semicolon but keeps the value as a
string.  The decoded object is therefore `\x7b "port": "8080" \x7d`,
diverging from the documented `\x7b "port": 8080 \x7d`. -/
theorem c1_const_semicolon_divergence :
    parseTSONString 2 [] none {} (s2l ("const P = 8080;\n\x7b port: P \x7d")) =
      .ok (some (.obj [(s2l ("port"), .str (s2l ("8080")))]), []) ∧
    JValue.str (s2l ("8080")) ≠ JValue.num 8080 := ⟨rfl, by simp⟩

/-- C2 (corrected): with the imported file stored under its resolved path and
carrying the extension `.tson`, the import is resolved, decoded, bound and
substituted, giving the object b ↦ (a ↦ 1).  The original claim promised this
for a path ending in the document's extension (`.cfg` in its scenario); but
the import regex hardcodes `.tson`, so the `.cfg` scenario leaves the
unresolved import unbound (see the counterexample). -/
theorem c2_import_amended :
    parseTSONString 3 [(s2l ("/base/base.tson"), s2l ("\x7b \"a\": 1 \x7d"))] none
        { baseDir := s2l ("/base") }
        (s2l ("import x from \"./base.tson\";\n\x7b \"b\": x \x7d")) =
      .ok (some (.obj [(s2l ("b"), .obj [(s2l ("a"), .num 1)])]), []) := rfl

/-- C2 counterexample: the claim's own scenario with `base.cfg`: the file is
present and decodable, but the import line does not match the hardcoded
`.tson` pattern, the line is then blanked by `removeImports`, `x` stays
unbound and the lenient parse yields no value instead of the claimed
object. -/
theorem c2_import_extension_counterexample :
    parseTSONString 3 [(s2l ("/base/base.cfg"), s2l ("\x7b \"a\": 1 \x7d"))] none
        { baseDir := s2l ("/base") }
        (s2l ("import x from \"./base.cfg\";\n\x7b \"b\": x \x7d")) =
      .ok (none, [parseErrMsg none]) ∧
    (Except.ok (none, [parseErrMsg none]) : PRes) ≠
      .ok (some (.obj [(s2l ("b"), .obj [(s2l ("a"), .num 1)])]), []) :=
  ⟨rfl, by simp⟩

/-- C3 (corrected): on a document whose lines are inert for every pre-pass —
no TSON import statements, no `import␣` prefixes after trimming, no comment
cut, no trailing whitespace on any line, and no constant declarations — the
pipeline is exactly key quoting plus trailing-comma removal followed by the
strict decode.  The original claim asked only for no comments, constants
and no imports; it fails on text with trailing line whitespace, which the
comment pass also strips (see the counterexample). -/
theorem c3_normalization_amended (fuel : Nat) (fs : FS) (fp : Option Str) (o : Opts)
    (t : Str) (hTC : o.allowTrailingCommas = true)
    (hImp : ∀ l ∈ splitLines t, tsonImportMatch (trim l) = none)
    (hImp2 : ∀ l ∈ splitLines t, ¬ (s2l ("import ")).isPrefixOf (trim l) = true)
    (hCmt : ∀ l ∈ splitLines t, scanCut false ' ' 0 l = false)
    (hWs : ∀ l ∈ splitLines t, trimEnd l = l)
    (hCst : ∀ l ∈ splitLines t, constMatch (trim l) = none) :
    parseTSONString fuel fs fp o t =
      match jsonParse (removeTrailingCommas (quoteKeys t)) with
      | some v => .ok (some v, [])
      | none =>
        if o.strict then .error ⟨.syntaxError, parseErrMsg fp, fp⟩
        else .ok (none, [parseErrMsg fp]) :=
  parseTSONString_inert fuel fs fp o t hTC hImp hImp2 hCmt hWs hCst

/-- C3 witness: the amended equation evaluated on a concrete inert
document. -/
theorem c3_normalization_amended_witness :
    parseTSONString 1 [] none {} (s2l ("\x7b\"a\":1\x7d")) =
      match jsonParse (removeTrailingCommas (quoteKeys (s2l ("\x7b\"a\":1\x7d")))) with
      | some v => .ok (some v, [])
      | none =>
        if ({} : Opts).strict then .error ⟨.syntaxError, parseErrMsg none, none⟩
        else .ok (none, [parseErrMsg none]) :=
  c3_normalization_amended 1 [] none {} (s2l ("\x7b\"a\":1\x7d")) rfl
    (by decide) (by decide) (by decide) (by decide) (by decide)

/-- C3 counterexample: a document consisting of braces followed by a vertical
tab contains no comments, constants or imports (first four conjuncts), yet
the pipeline decodes it — the comment pass right-trims the JS whitespace —
while the normalized decode of the raw text fails. -/
theorem c3_normalization_counterexample :
    (∀ l ∈ splitLines (s2l ("\x7b\x7d\x0b")), tsonImportMatch (trim l) = none) ∧
    (∀ l ∈ splitLines (s2l ("\x7b\x7d\x0b")),
      ¬ (s2l ("import ")).isPrefixOf (trim l) = true) ∧
    (∀ l ∈ splitLines (s2l ("\x7b\x7d\x0b")), scanCut false ' ' 0 l = false) ∧
    (∀ l ∈ splitLines (s2l ("\x7b\x7d\x0b")), constMatch (trim l) = none) ∧
    parseTSONString 1 [] none {} (s2l ("\x7b\x7d\x0b")) = .ok (some (.obj []), []) ∧
    jsonParse (removeTrailingCommas (quoteKeys (s2l ("\x7b\x7d\x0b")))) = none :=
  ⟨by decide, by decide, by decide, by decide, rfl, rfl⟩

/-- C4 witness: the amended law evaluated at the body `"a":1` with closing
brace, one space of whitespace after the trailing comma in the normalizer
conjuncts, and the immediate-close document pair in the parse conjunct. -/
theorem c4_trailing_comma_amended_witness :
    removeTrailingCommas (s2l ("\x7b\"a\":1") ++ ',' :: ([' '] ++ ['\x7d'])) =
      s2l ("\x7b\"a\":1") ++ ([' '] ++ ['\x7d']) ∧
    removeTrailingCommas (s2l ("\x7b\"a\":1") ++ ['\x7d']) =
      s2l ("\x7b\"a\":1") ++ ['\x7d'] ∧
    parseTSONString 1 [] none {} (s2l ("\x7b\"a\":1") ++ ',' :: ['\x7d']) =
      parseTSONString 1 [] none {} (s2l ("\x7b\"a\":1") ++ ['\x7d']) :=
  c4_trailing_comma_amended 1 [] none {} (s2l ("\x7b\"a\":1")) (Or.inl rfl)
    (s2l ("\x7b\"a\":1")) (by decide) (by decide) [' '] (by decide) rfl
    (by decide) (by decide) (by decide) (by decide) (by decide)
    (by decide) (by decide) (by decide) (by decide) (by decide)
    (by decide) (by decide)

/-- C4 counterexample: the body `"a":1,` decodes inside braces through the
pipeline (its single trailing comma is removed), but closing it with one more
trailing comma fails: the global replace scans left to right without
rescanning, so only the second comma is removed and the decode errors. -/
theorem c4_trailing_comma_counterexample :
    rValue (parseTSONString 1 [] none {} (s2l ("\x7b\"a\":1,\x7d"))) =
      some (.obj [(s2l ("a"), .num 1)]) ∧
    rValue (parseTSONString 1 [] none {} (s2l ("\x7b\"a\":1,,\x7d"))) = none :=
  ⟨rfl, rfl⟩

/-- C5 witness: the amended behaviour on the empty filesystem. -/
theorem c5_missing_import_amended_witness :
    parseTSONString 1 [] none { strict := true }
        (s2l ("import x from \"./missing.tson\";\n\x7b \"v\": x \x7d")) =
      .error ⟨.importParseFailure,
        wrapImportMsg (s2l ("./missing.tson"))
          (importNotFoundMsg (s2l ("./missing.tson")) (s2l ("/missing.tson"))), none⟩ ∧
    List.IsInfix (s2l ("TSON import file not found"))
        (wrapImportMsg (s2l ("./missing.tson"))
          (importNotFoundMsg (s2l ("./missing.tson")) (s2l ("/missing.tson")))) ∧
    List.IsInfix (s2l ("./missing.tson"))
        (wrapImportMsg (s2l ("./missing.tson"))
          (importNotFoundMsg (s2l ("./missing.tson")) (s2l ("/missing.tson")))) ∧
    parseTSONString 1 [] none { strict := false }
        (s2l ("import x from \"./missing.tson\";\n\x7b \"v\": x \x7d")) =
      .ok (none, [importNotFoundMsg (s2l ("./missing.tson")) (s2l ("/missing.tson")),
        parseErrMsg none]) :=
  c5_missing_import_amended 1 [] none rfl

/-- C5 counterexample: a lenient parse of a document with a missing import
returns a decoded value (the rest of the document is valid on its own)
alongside the diagnostic, not the claimed absent result. -/
theorem c5_missing_import_counterexample :
    parseTSONString 1 [] none { baseDir := s2l ("/base") }
        (s2l ("import x from \"./missing.tson\";\n\x7b \"a\": 1 \x7d")) =
      .ok (some (.obj [(s2l ("a"), .num 1)]),
        [importNotFoundMsg (s2l ("./missing.tson")) (s2l ("/base/missing.tson"))]) := rfl

/-- C6 witness: the amended behaviour at the one-letter constant name `x`. -/
theorem c6_forward_reference_amended_witness :
    processConstDeclarations
        ((s2l ("\x7b \"a\": ") ++ (('x' :: []) ++ s2l (" \x7d"))) ++ '\n' ::
          (s2l ("const ") ++ (('x' :: []) ++ s2l (" = 1;")))) =
      (s2l ("\x7b \"a\": ") ++ (('x' :: []) ++ s2l (" \x7d"))) ++ ['\n'] ∧
    parseTSONString 1 [] none { strict := true }
        ((s2l ("\x7b \"a\": ") ++ (('x' :: []) ++ s2l (" \x7d"))) ++ '\n' ::
          (s2l ("const ") ++ (('x' :: []) ++ s2l (" = 1;")))) =
      .error ⟨.syntaxError, parseErrMsg none, none⟩ :=
  c6_forward_reference_amended 'x' [] (by decide) (by decide) (by decide) (by decide)
    (by decide) 1 [] none

/-- C6 counterexample: with the constant named `true`, the forward reference
on the earlier line is left verbatim as always, but the strict decode
succeeds — the bare identifier is itself valid JSON — so the claimed
SyntaxError does not occur. -/
theorem c6_forward_reference_counterexample :
    parseTSONString 1 [] none { strict := true }
        (s2l ("\x7b \"a\": true \x7d\nconst true = 1;")) =
      .ok (some (.obj [(s2l ("a"), .bool true)]), []) ∧
    ∀ e : TSONErr, ¬ parseTSONString 1 [] none { strict := true }
        (s2l ("\x7b \"a\": true \x7d\nconst true = 1;")) = .error e := by
  refine ⟨rfl, ?_⟩
  intro e h
  rw [show parseTSONString 1 [] none { strict := true }
      (s2l ("\x7b \"a\": true \x7d\nconst true = 1;")) =
      .ok (some (.obj [(s2l ("a"), .bool true)]), []) from rfl] at h
  exact Except.noConfusion h

/-- C7 (confirmed): the comment stripper is idempotent: a second run of
`removeComments` changes nothing. -/
theorem c7_comment_stripper_idempotent (t : Str) :
    removeComments (removeComments t) = removeComments t :=
  removeComments_idem t

/-- C8 (confirmed): a string literal containing `http://example.com` survives
comment stripping: for a line `pre"content"post` where the scan of `pre`
stops at no comment and ends outside any string, and `content` holds no
quote or backslash, the stripper copies the prefix and the literal verbatim
and resumes comment handling only in `post`, so the URL is still an infix of
the output. -/
theorem c8_string_url_preserved (pre content post : Str)
    (hcut : scanCut false ' ' 0 pre = false)
    (hout : (scanSt (false, ' ', 0) pre).1 = false)
    (hcontent : ∀ c ∈ content, ¬ c = '"' ∧ ¬ c = '\\')
    (hurl : List.IsInfix (s2l ("http://example.com")) content) :
    removeCommentsLine (pre ++ '"' :: (content ++ '"' :: post)) =
      (pre ++ '"' :: content) ++ '"' :: trimEnd (scanLine false '"' 0 post) ∧
    List.IsInfix (s2l ("http://example.com"))
      (removeCommentsLine (pre ++ '"' :: (content ++ '"' :: post))) := by
  have hmain : removeCommentsLine (pre ++ '"' :: (content ++ '"' :: post)) =
      (pre ++ '"' :: content) ++ '"' :: trimEnd (scanLine false '"' 0 post) := by
    unfold removeCommentsLine
    rw [scanLine_append_of_no_cut pre ('"' :: (content ++ '"' :: post)) false ' ' 0
      hcut rfl]
    rw [hout, scanLine_open_quote, scanLine_instring content post hcontent]
    have hsh : pre ++ '"' :: (content ++ '"' :: scanLine false '"' 0 post) =
        (pre ++ '"' :: content) ++ '"' :: scanLine false '"' 0 post := by
      simp
    rw [hsh, trimEnd_append_anchor _ _ _ (by decide)]
  refine ⟨hmain, ?_⟩
  rw [hmain]
  refine List.IsInfix.trans hurl ?_
  exact ⟨pre ++ ['"'], '"' :: trimEnd (scanLine false '"' 0 post), by simp⟩

/-- C8 witness: a concrete configuration line whose string value is the URL
itself. -/
theorem c8_string_url_preserved_witness :
    removeCommentsLine (s2l ("\x7b \"url\": ") ++ '"' ::
        (s2l ("http://example.com") ++ '"' :: s2l (" \x7d"))) =
      (s2l ("\x7b \"url\": ") ++ '"' :: s2l ("http://example.com")) ++ '"' ::
        trimEnd (scanLine false '"' 0 (s2l (" \x7d"))) ∧
    List.IsInfix (s2l ("http://example.com"))
      (removeCommentsLine (s2l ("\x7b \"url\": ") ++ '"' ::
        (s2l ("http://example.com") ++ '"' :: s2l (" \x7d")))) :=
  c8_string_url_preserved (s2l ("\x7b \"url\": ")) (s2l ("http://example.com"))
    (s2l (" \x7d")) (by decide) (by decide) (by decide) (by decide)

/-- C9 (confirmed): every line-oriented pass preserves the line count:
comment stripping, constant processing and import-line removal keep the
number of lines of any text, and a successful TSON-import pass returns a
text with as many lines as its input. -/
theorem c9_line_count_preserved (t : Str) :
    (splitLines (removeComments t)).length = (splitLines t).length ∧
    (splitLines (processConstDeclarations t)).length = (splitLines t).length ∧
    (splitLines (removeImports t)).length = (splitLines t).length ∧
    ∀ (pf : Str → Opts → PRes) (fs : FS) (bd : Str) (fp : Option Str) (st : Bool)
      (t2 : Str) (ds : List Str),
      processTSONImportsF pf fs bd fp st t = .ok (t2, ds) →
      (splitLines t2).length = (splitLines t).length :=
  ⟨removeComments_lineCount t, processConstDeclarations_lineCount t,
    removeImports_lineCount t,
    fun pf fs bd fp st t2 ds h => processTSONImportsF_lineCount pf fs bd fp st t t2 ds h⟩

/-- C10 (confirmed): `validateTSON` never throws: it returns `true` exactly
when the strict parse of the file succeeds and `false` exactly when the
strict parse raises, every raised error (missing file, import failure,
decode failure, exhausted fuel) becoming the boolean `false`; in particular
it returns `false` on the empty filesystem, where the file is missing. -/
theorem c10_validate_never_throws (fuel : Nat) (fs : FS) (p : Str) :
    (validateTSON fuel fs p = true ↔
      ∃ r, parseTSON fuel fs p { strict := true } = .ok r) ∧
    (validateTSON fuel fs p = false ↔
      ∃ e, parseTSON fuel fs p { strict := true } = .error e) ∧
    validateTSON fuel [] p = false := by
  refine ⟨?_, ?_, ?_⟩
  · unfold validateTSON parseTSON
    cases h : parseTSONFuel fuel fs p { strict := true } with
    | ok r => simp [h]
    | error e => simp [h]
  · unfold validateTSON parseTSON
    cases h : parseTSONFuel fuel fs p { strict := true } with
    | ok r => simp [h]
    | error e => simp [h]
  · cases fuel with
    | zero => rfl
    | succ n => rfl

end TSON
